import Mathlib

/-!
Verification development for the Cerebr-X conversation engine.

The definitions below are a shallow embedding of the JavaScript sources:
* `src/src/core/message_composer.js` (message composition: `composeMessages`,
  `selectConversationNodesByRole`, `mapRole`, `applyUserMessageSpacing`,
  `sanitizeContentForSend`, `normalizeOptionalNonNegativeInt`),
* the regenerate-target resolver `resolveRegenerateTarget` from the context
  menu module,
* `src/src/extension/background.js` (presence snapshot
  `buildOpenConversationSnapshot` and `focusConversationTab`),
* the conversation-tree `deleteNode` operation and the coordinator-side
  conversation-lock grant logic, both modelled from the specification because
  their JavaScript implementations are not among the provided sources.

JavaScript numbers are modelled as `Int`/`Nat` (only integral values flow
through the embedded code paths), JavaScript `null`/`undefined` as `Option`,
and the external `extractThinkingFromText` helper (module
`src/utils/thoughts_parser.js`, not among the sources) is abstracted as an
arbitrary `clean : String → String` parameter.
-/

set_option maxHeartbeats 1000000

namespace Cerebr

/-- Message content: either a plain string or the legacy array-of-parts
format (parts kept abstract as strings); mirrors the
`string | Array` content values flowing through `composeMessages`. -/
inductive MsgContent where
  | str (s : String)
  | parts (ps : List String)
deriving DecidableEq

/-- A conversation-chain node as consumed by `composeMessages`
(`ConversationNode` in the source's JSDoc). -/
structure MsgNode where
  id : String
  role : String
  content : MsgContent
  thoughtSignature : Option String
deriving DecidableEq

/-- A wire-ready composed message (`{role, content, thoughtSignature}`). -/
structure ComposedMessage where
  role : String
  content : MsgContent
  thoughtSignature : Option String
deriving DecidableEq

/-- Page content block (`{title, url, content}`). -/
structure PageContent where
  title : String
  url : String
  content : String
deriving DecidableEq

/-- The argument bundle of `composeMessages` (`ComposeMessagesArgs`).
`systemPrompt` stands for `prompts.system?.prompt` (absent entry → `none`);
`maxHistory`, `maxUserHistory`, `maxAssistantHistory` are JS
number-or-null/undefined values, modelled as `Option Int`. -/
structure ComposeArgs where
  systemPrompt : Option String
  injectedSystemMessages : List String
  pageContent : Option PageContent
  imageContainsScreenshot : Bool
  regenerateMode : Bool
  messageId : Option String
  conversationChain : List MsgNode
  sendChatHistory : Bool
  maxHistory : Option Int
  maxUserHistory : Option Int
  maxAssistantHistory : Option Int
deriving DecidableEq

/-- JS `String.prototype.trim`: strip leading and trailing whitespace
(spelled out on the character list so that it evaluates by reduction). -/
def jsTrim (s : String) : String :=
  ⟨((s.data.dropWhile Char.isWhitespace).reverse.dropWhile Char.isWhitespace).reverse⟩

/-- `mapRole` from message_composer.js: pass the three API roles through,
map the legacy internal `'ai'` to `'assistant'`, anything else to `'user'`. -/
def mapRole (role : String) : String :=
  if role == "user" || role == "assistant" || role == "system" then role
  else if role == "ai" then "assistant"
  else "user"

/-- `sanitizeContentForSend`: strings go through the thoughts parser's
`cleanText` (abstracted as `clean`), non-strings are returned unchanged. -/
def sanitizeContentForSend (clean : String → String) : MsgContent → MsgContent
  | .str s => .str (clean s)
  | .parts ps => .parts ps

/-- Models the JS idiom `x || null` on an optional string: an empty string is
falsy and collapses to `null`. -/
def jsOrNull : Option String → Option String
  | none => none
  | some s => if s == "" then none else some s

/-- `normalizeOptionalNonNegativeInt`: `null`/`undefined` stay unset, a
number is clamped to a non-negative integer (`Math.max(0, Math.floor(n))`;
on integral inputs this is `Int.toNat`). -/
def normalizeOptionalNonNegativeInt : Option Int → Option Nat
  | none => none
  | some v => some v.toNat

/-- `userCount < userLimit`, where an unset cap is `Infinity`. -/
def underLimit (cnt : Nat) (cap : Option Nat) : Bool :=
  match cap with
  | none => true
  | some k => decide (cnt < k)

/-- `userCount >= userLimit`; false for an unset (`Infinity`) cap. -/
def capReached (cnt : Nat) (cap : Option Nat) : Bool :=
  match cap with
  | none => false
  | some k => decide (k ≤ cnt)

/-- The per-role counter update of the backward scan: increment only when
the node has the role and the counter is still below the cap (i.e. the node
was selected and counted). -/
def bumpCount (cnt : Nat) (cap : Option Nat) (hit : Bool) : Nat :=
  if hit && underLimit cnt cap then cnt + 1 else cnt

/-- The selected-flag of one scan step (`user`/`assistant` below their caps;
`system` always). -/
def selFlag (role : String) (uCnt aCnt : Nat) (uCap aCap : Option Nat) : Bool :=
  if role == "user" then underLimit uCnt uCap
  else if role == "assistant" then underLimit aCnt aCap
  else true

/-- The backward scan of `selectConversationNodesByRole`, expressed on the
reversed chain: produce one selected-flag per node (newest first), keeping
per-role counters, and once both finite caps are satisfied stop scanning
(all remaining flags are false, mirroring the `break`). -/
def markLoop (uCap aCap : Option Nat) : List MsgNode → Nat → Nat → List Bool
  | [], _, _ => []
  | nd :: rest, uCnt, aCnt =>
    selFlag (mapRole nd.role) uCnt aCnt uCap aCap ::
      (if capReached (bumpCount uCnt uCap (mapRole nd.role == "user")) uCap
          && capReached (bumpCount aCnt aCap (mapRole nd.role == "assistant")) aCap
          && uCap.isSome && aCap.isSome then
        rest.map (fun _ => false)
      else
        markLoop uCap aCap rest (bumpCount uCnt uCap (mapRole nd.role == "user"))
          (bumpCount aCnt aCap (mapRole nd.role == "assistant")))

/-- Index of the chain's last node whose mapped role is `'user'`
(the source's final backward loop over `safeChain`). -/
def lastUserMappedIdx : List MsgNode → Option Nat
  | [] => none
  | nd :: rest =>
    match lastUserMappedIdx rest with
    | some j => some (j + 1)
    | none => if mapRole nd.role == "user" then some 0 else none

/-- `selectConversationNodesByRole`: scan the chain backward with
independent per-role caps (system nodes inside the scan window always kept),
force-include the last user-mapped node, and emit the selected nodes in
chronological order. The source collects a `Set` of indices, sorts it
ascending and maps back to nodes; filtering the chain by the selected-flag
of each index is the same operation. -/
def selectConversationNodesByRole (chain : List MsgNode)
    (maxUserMessages maxAssistantMessages : Option Nat) : List MsgNode :=
  let marksDesc := markLoop maxUserMessages maxAssistantMessages chain.reverse 0 0
  let marks := marksDesc.reverse
  let marks2 :=
    match lastUserMappedIdx chain with
    | some j => marks.set j true
    | none => marks
  ((chain.zip marks2).filter (fun p => p.2)).map (fun p => p.1)

/-- Build the system message content: base system prompt, screenshot note,
injected system messages, page-content block (string concatenation order as
in the source). -/
def systemMessageContent (args : ComposeArgs) : String :=
  let pageContentPrompt :=
    match args.pageContent with
    | none => ""
    | some pc =>
        "\n\n当前网页内容：\n标题：" ++ pc.title ++ "\nURL：" ++ pc.url
          ++ "\n内容：" ++ pc.content
  let s := args.systemPrompt.getD ""
  let s := if args.imageContainsScreenshot then s ++ "\n用户附加了当前页面的屏幕截图" else s
  let s :=
    if args.injectedSystemMessages.isEmpty then s
    else s ++ "\n" ++ String.intercalate "\n" args.injectedSystemMessages
  s ++ pageContentPrompt

/-- The optional leading system message: pushed only when the concatenated
system content is not blank. -/
def systemPart (args : ComposeArgs) : List ComposedMessage :=
  if jsTrim (systemMessageContent args) == "" then []
  else [⟨"system", .str (systemMessageContent args), none⟩]

/-- The regenerate clipping step of `composeMessages`: when in regenerate
mode with a truthy `messageId`, cut the chain at (and including) the first
node with that id; if the id is not found the full chain is kept. -/
def effectiveChain (args : ComposeArgs) : List MsgNode :=
  let chain := args.conversationChain
  match args.messageId with
  | none => chain
  | some mid =>
    if args.regenerateMode && mid != "" then
      match chain.findIdx? (fun nd => nd.id == mid) with
      | some j => chain.take (j + 1)
      | none => chain
    else chain

/-- Turn a chain node into a composed message (history paths: mapped role,
sanitized content, `thoughtSignature || null`). -/
def msgOfNode (clean : String → String) (nd : MsgNode) : ComposedMessage :=
  ⟨mapRole nd.role, sanitizeContentForSend clean nd.content, jsOrNull nd.thoughtSignature⟩

/-- History-message selection of `composeMessages`: role-based caps when any
is set, otherwise the legacy single `maxHistory` cap (`0` = none, positive =
last N, absent/negative = all); with history disabled only the chain's last
message is sent (without a thoughtSignature field). -/
def historyPart (clean : String → String) (args : ComposeArgs)
    (effChain : List MsgNode) : List ComposedMessage :=
  if args.sendChatHistory then
    if (normalizeOptionalNonNegativeInt args.maxUserHistory).isSome
        || (normalizeOptionalNonNegativeInt args.maxAssistantHistory).isSome then
      (selectConversationNodesByRole effChain
         (normalizeOptionalNonNegativeInt args.maxUserHistory)
         (normalizeOptionalNonNegativeInt args.maxAssistantHistory)).map (msgOfNode clean)
    else if args.maxHistory == some 0 then []
    else
      match args.maxHistory with
      | some m =>
        if 0 < m then (effChain.drop (effChain.length - m.toNat)).map (msgOfNode clean)
        else effChain.map (msgOfNode clean)
      | none => effChain.map (msgOfNode clean)
  else
    match effChain.getLast? with
    | some last => [⟨mapRole last.role, sanitizeContentForSend clean last.content, none⟩]
    | none => []

/-- The chain's last node with raw role `'user'` (the `maxHistory === 0`
fallback loop scans backward on the raw role). -/
def lastRawUser (chain : List MsgNode) : Option MsgNode :=
  chain.reverse.find? (fun nd => nd.role == "user")

/-- The `maxHistory === 0` fallback: if no user message made it into the
output, append the chain's last raw-user message. -/
def fallbackPart (clean : String → String) (args : ComposeArgs)
    (effChain : List MsgNode) (base : List ComposedMessage) : List ComposedMessage :=
  if args.maxHistory == some 0 && !effChain.isEmpty then
    if base.any (fun m => m.role == "user") then []
    else
      match lastRawUser effChain with
      | some nd =>
          [⟨"user", sanitizeContentForSend clean nd.content, jsOrNull nd.thoughtSignature⟩]
      | none => []
  else []

/-- The Markdown separator inserted between consecutive user messages. -/
def USER_MESSAGE_SEPARATOR : String := "\n\n---\n\n"

/-- JS `String.startsWith`, spelled out on the character lists. -/
def strStartsWith (s pre : String) : Bool :=
  go s.data pre.data
where
  go : List Char → List Char → Bool
  | _, [] => true
  | [], _ :: _ => false
  | c :: cs, p :: ps => c == p && go cs ps

/-- One step of `applyUserMessageSpacing`: a user message directly after
another user message gets the separator prepended to its content, but only
when the content is a plain string not already carrying the separator. -/
def spaceMsg (prevIsUser : Bool) (m : ComposedMessage) : ComposedMessage :=
  if m.role == "user" && prevIsUser then
    match m.content with
    | .str s =>
        if strStartsWith s USER_MESSAGE_SEPARATOR then m
        else ⟨m.role, .str (USER_MESSAGE_SEPARATOR ++ s), m.thoughtSignature⟩
    | .parts _ => m
  else m

/-- The loop of `applyUserMessageSpacing`, carrying the previous message's
user-flag. -/
def spacingGo : Bool → List ComposedMessage → List ComposedMessage
  | _, [] => []
  | prev, m :: rest => spaceMsg prev m :: spacingGo (m.role == "user") rest

/-- `applyUserMessageSpacing` from message_composer.js. -/
def applyUserMessageSpacing (ms : List ComposedMessage) : List ComposedMessage :=
  spacingGo false ms

/-- `composeMessages` before the final spacing pass: system message,
selected history, `maxHistory === 0` fallback. -/
def composeRaw (clean : String → String) (args : ComposeArgs) : List ComposedMessage :=
  let eff := effectiveChain args
  let base := systemPart args ++ historyPart clean args eff
  base ++ fallbackPart clean args eff base

/-- `composeMessages` from message_composer.js. -/
def composeMessages (clean : String → String) (args : ComposeArgs) : List ComposedMessage :=
  applyUserMessageSpacing (composeRaw clean args)

/-- The chain node `nd` is present as a user turn in a composed output
list: some message carries role `user` and the node's sanitized content —
allowing for the separator prefix that `applyUserMessageSpacing` prepends
to a string-content user message directly following another user
message. -/
def userTurnPresent (clean : String → String) (ms : List ComposedMessage)
    (nd : MsgNode) : Prop :=
  ∃ m ∈ ms, m.role = "user" ∧
    (m.content = sanitizeContentForSend clean nd.content ∨
     ∃ s, sanitizeContentForSend clean nd.content = .str s ∧
       m.content = .str (USER_MESSAGE_SEPARATOR ++ s))

/-!
## Regenerate-target resolver

Shallow embedding of `resolveRegenerateTarget` from the context-menu module.
A rendered message element is reduced to the features the function reads:
its `user-message` / `ai-message` / `loading-message` classes and its
`data-message-id` / `data-original-text` attributes (missing attribute ↦
empty string, matching `getAttribute(..) || ''`). The chat container's
children are a list; the selected element is an index into it.
-/

/-- A rendered message element, reduced to the features
`resolveRegenerateTarget` inspects. -/
structure DomMessage where
  isAi : Bool
  isUser : Bool
  isLoading : Bool
  messageId : String
  originalText : String
deriving DecidableEq

/-- `findPrevUser`: walk `previousElementSibling` from index `i` and return
the first (i.e. nearest) element carrying the `user-message` class, with its
index. -/
def findPrevUserPair (els : List DomMessage) : Nat → Option (Nat × DomMessage)
  | 0 => none
  | j + 1 =>
    match els.get? j with
    | some x => if x.isUser then some (j, x) else findPrevUserPair els j
    | none => findPrevUserPair els j

/-- Forward walk underlying `findNextAi`, with explicit fuel (the list
length always suffices). -/
def nextAiGo (els : List DomMessage) : Nat → Nat → Option (Nat × DomMessage)
  | 0, _ => none
  | fuel + 1, k =>
    match els.get? k with
    | none => none
    | some x => if x.isAi then some (k, x) else nextAiGo els fuel (k + 1)

/-- `findNextAi`: walk `nextElementSibling` from index `i` and return the
first element carrying the `ai-message` class, with its index. -/
def findNextAiPair (els : List DomMessage) (i : Nat) : Option (Nat × DomMessage) :=
  nextAiGo els els.length (i + 1)

/-- The result record of `resolveRegenerateTarget` (element references are
represented by indices). -/
structure RegenTarget where
  userIdx : Nat
  userMessageId : String
  originalMessageText : String
  targetAiIdx : Option Nat
  targetAiMessageId : Option String
deriving DecidableEq

/-- `resolveRegenerateTarget`: assistant message → nearest preceding user
as anchor, itself as target; user message → itself as anchor, nearest
following assistant as target (or none); `none` for loading/error
placeholders, for elements that are neither user nor assistant messages,
when no anchor user element exists, and when the anchor carries no
`data-message-id`. -/
def resolveRegenerateTarget (els : List DomMessage) (i : Nat) : Option RegenTarget :=
  match els.get? i with
  | none => none
  | some e =>
    if e.isLoading then none
    else if !e.isAi && !e.isUser then none
    else
      match (if e.isAi then findPrevUserPair els i else some (i, e)) with
      | none => none
      | some (uIdx, uEl) =>
        if uEl.messageId == "" then none
        else
          let t? := if e.isAi then some (i, e) else findNextAiPair els i
          some ⟨uIdx, uEl.messageId, uEl.originalText,
                t?.map (fun p => p.1),
                match t? with
                | some (_, tEl) => jsOrNull (some tEl.messageId)
                | none => none⟩

/-!
## Presence registry (background coordinator)

Shallow embedding of `buildOpenConversationSnapshot` and
`focusConversationTab` from `src/src/extension/background.js`. The
`conversationPresenceByPort` map values are modelled as a list of
`PresenceInfo` (one per live port, in insertion order); JS `Map`s built
during the scan become association lists with JS `Map.set` semantics
(update in place, append if new). JS numeric coercion matters here:
`Number(null) = 0`, so a `null` `tabId`/`windowId`/`lastUpdated` passes the
`Number.isFinite` guard and lands in the snapshot as `0`.
-/

/-- `ConversationPresenceInfo` as stored per port. -/
structure PresenceInfo where
  tabId : Option Int
  windowId : Option Int
  conversationId : Option String
  tabTitle : String
  tabUrl : String
  isStandalone : Bool
  lastUpdated : Int
deriving DecidableEq

/-- `normalizeConversationId`: non-strings → null, blank after trim → null,
otherwise the trimmed id. (The stored ids are already trimmed, but the
function is re-applied as in the source.) -/
def normalizeConversationId : Option String → Option String
  | none => none
  | some s => if jsTrim s == "" then none else some (jsTrim s)

/-- A per-tab snapshot entry (`title`/`url` tooltips included).
`tabId`, `windowId` and `lastUpdated` go through `Number(·)`, so `null`
becomes `0`. -/
structure SnapshotEntry where
  tabId : Int
  windowId : Int
  title : String
  url : String
  isStandalone : Bool
  lastUpdated : Int
deriving DecidableEq

/-- Build a `SnapshotEntry` from a `PresenceInfo` (the `Number(null) = 0`
coercion applied to the optional numeric fields). -/
def entryOfInfo (info : PresenceInfo) : SnapshotEntry :=
  ⟨info.tabId.getD 0, info.windowId.getD 0, info.tabTitle, info.tabUrl,
   info.isStandalone, info.lastUpdated⟩

/-- JS `Map.set` on an association list: overwrite in place, append if the
key is new. -/
def upsert {α β : Type} [BEq α] (k : α) (v : β) : List (α × β) → List (α × β)
  | [] => [(k, v)]
  | (k', v') :: rest => if k' == k then (k, v) :: rest else (k', v') :: upsert k v rest

/-- The effective filter set of `buildOpenConversationSnapshot`: a missing
or empty list is no filter; otherwise the normalized ids — and when all
entries normalize away, the filter degenerates to no filter
(`set.size ? set : null`). -/
def buildFilterSet : Option (List String) → Option (List String)
  | none => none
  | some ids =>
    if ids.isEmpty then none
    else
      let set := (ids.map (fun raw => normalizeConversationId (some raw))).filterMap id
      if set.isEmpty then none else some set.eraseDups

/-- One iteration of the `for (const info of conversationPresenceByPort.values())`
loop: skip infos with no (normalized) conversation id or one outside the
filter, then upsert the entry into the per-conversation per-tab map,
keeping the most recently updated entry per tab (`>=` lets a later port
win ties). -/
def snapshotStep (filterSet : Option (List String))
    (acc : List (String × List (Int × SnapshotEntry))) (info : PresenceInfo) :
    List (String × List (Int × SnapshotEntry)) :=
  match normalizeConversationId info.conversationId with
  | none => acc
  | some convId =>
    if (match filterSet with | some s => !s.contains convId | none => false) then acc
    else
      let tabId := info.tabId.getD 0
      let perTab := (List.lookup convId acc).getD []
      let entry := entryOfInfo info
      let perTab' :=
        match List.lookup tabId perTab with
        | some existing =>
            if existing.lastUpdated ≤ entry.lastUpdated then upsert tabId entry perTab
            else perTab
        | none => upsert tabId entry perTab
      upsert convId perTab' acc

/-- `buildOpenConversationSnapshot`: aggregate live presence infos into a
conversation-id → entry-list map, deduplicated by tab and sorted by
`lastUpdated` descending. -/
def buildOpenConversationSnapshot (infos : List PresenceInfo)
    (conversationIds : Option (List String)) : List (String × List SnapshotEntry) :=
  let filterSet := buildFilterSet conversationIds
  let convToTabs := infos.foldl (snapshotStep filterSet) []
  convToTabs.map (fun p =>
    (p.1, (p.2.map (fun q => q.2)).mergeSort (fun a b => decide (b.lastUpdated ≤ a.lastUpdated))))

/-- A browser tab as returned by `chrome.tabs.get`. -/
structure BrowserTab where
  id : Int
  windowId : Int
deriving DecidableEq

/-- Result statuses of `focusConversationTab`. -/
inductive FocusStatus where
  | ok (tabId windowId : Int)
  | notFound
  | errorRes (msg : String)
deriving DecidableEq

/-- Target choice of `focusConversationTab`:
`entries.find(e => excludeTabId === null || e.tabId !== excludeTabId) || entries[0] || null`. -/
def pickFocusTarget (entries : List SnapshotEntry) (excludeTabId : Option Int) :
    Option SnapshotEntry :=
  match entries.find? (fun e =>
      match excludeTabId with
      | none => true
      | some x => e.tabId != x) with
  | some t => some t
  | none => entries.head?

/-- `focusConversationTab`: snapshot the conversation's entries, pick a
target tab, and ask the host to focus it (`getTab` models `chrome.tabs.get`,
returning `none` for a dead tab). On a dead tab, ports whose
`Number(info.tabId)` equals the target tab id are purged and the function
reports an error status; `not_found` is reported only when the snapshot has
no entry at all. Returns the result together with the surviving presence
infos. -/
def focusConversationTab (infos : List PresenceInfo)
    (conversationId : Option String) (excludeTabId : Option Int)
    (getTab : Int → Option BrowserTab) : FocusStatus × List PresenceInfo :=
  match normalizeConversationId conversationId with
  | none => (.errorRes "invalid_conversation_id", infos)
  | some convId =>
    let snapshot := buildOpenConversationSnapshot infos (some [convId])
    let entries := (List.lookup convId snapshot).getD []
    match pickFocusTarget entries excludeTabId with
    | none => (.notFound, infos)
    | some target =>
      match getTab target.tabId with
      | some tab => (.ok tab.id tab.windowId, infos)
      | none =>
        (.errorRes "focus_failed",
         infos.filter (fun info => !(info.tabId.getD 0 == target.tabId)))

/-- The tab-exclusion test of `focusConversationTab`, factored out of the
`entries.find(...)` predicate: with no `excludeTabId` every entry passes,
otherwise entries on the excluded tab are rejected. -/
def notExcluded (excludeTabId : Option Int) (e : SnapshotEntry) : Bool :=
  match excludeTabId with
  | none => true
  | some x => e.tabId != x

/-- The pass/skip test of the snapshot scan, as a Boolean (a conversation
id passes a missing filter, or one that contains it). -/
def passesFilter (fs : Option (List String)) (c : String) : Bool :=
  match fs with
  | none => true
  | some s => s.contains c

/-- A presence info reports conversation `c` and survives the filter. -/
def infoMatches (fs : Option (List String)) (c : String) (info : PresenceInfo) : Prop :=
  normalizeConversationId info.conversationId = some c ∧ passesFilter fs c = true

/-- Invariant of one per-conversation tab map after processing the infos in
`pre`: tab ids are unique, every kept pair comes from a matching info and
dominates (in `lastUpdated`) every matching info for its tab, and every
matching info has its tab represented. -/
def PerTabInv (fs : Option (List String)) (pre : List PresenceInfo) (c : String)
    (perTab : List (Int × SnapshotEntry)) : Prop :=
  (perTab.map Prod.fst).Nodup ∧
  (∀ p ∈ perTab,
    (∃ i2 ∈ pre, infoMatches fs c i2 ∧ i2.tabId.getD 0 = p.1 ∧
      entryOfInfo i2 = p.2) ∧
    ∀ i2 ∈ pre, infoMatches fs c i2 → i2.tabId.getD 0 = p.1 →
      i2.lastUpdated ≤ p.2.lastUpdated) ∧
  ∀ i2 ∈ pre, infoMatches fs c i2 → i2.tabId.getD 0 ∈ perTab.map Prod.fst

/-- Invariant of the whole snapshot scan after processing the infos in
`pre`. -/
def AccInv (fs : Option (List String)) (pre : List PresenceInfo)
    (acc : List (String × List (Int × SnapshotEntry))) : Prop :=
  (acc.map Prod.fst).Nodup ∧
  (∀ c, (List.lookup c acc).isSome = true ↔ ∃ i2 ∈ pre, infoMatches fs c i2) ∧
  ∀ c perTab, List.lookup c acc = some perTab → PerTabInv fs pre c perTab

/-!
## Conversation tree (modelled from the spec)

The conversation tree manager (`chat_history_manager.js`, imported by
`sidebar.js` but not among the provided sources) owns `deleteNode`.
-/

/-- A tree message node (arena representation: parent by id). -/
structure TreeNode where
  id : String
  parentId : Option String
  role : String
  content : String
deriving DecidableEq

/-- A conversation tree: node arena plus head pointer. -/
structure ConversationTree where
  nodes : List TreeNode
  head : Option String
deriving DecidableEq

/-- Modelled from the spec: `deleteNode(id)` of the conversation tree
manager (`chat_history_manager.js` is not among the provided sources).
Per spec §4.1: remove node `id`; every direct child of `id` is re-parented
to `id`'s parent (preserving relative order); if `id` was the head, head
moves to `id`'s parent; returns `false` (tree unchanged) if `id` is not
found. -/
def deleteNode (t : ConversationTree) (nid : String) : ConversationTree × Bool :=
  match t.nodes.find? (fun nd => nd.id == nid) with
  | none => (t, false)
  | some d =>
    let reparented := t.nodes.map (fun nd =>
      if nd.parentId == some nid then ⟨nd.id, d.parentId, nd.role, nd.content⟩ else nd)
    let nodes' := reparented.filter (fun nd => nd.id != nid)
    let head' := if t.head == some nid then d.parentId else t.head
    (⟨nodes', head'⟩, true)

/-- Well-formedness of a conversation tree: ids unique, and every parent
reference points to an existing, distinct node. -/
def TreeWF (t : ConversationTree) : Prop :=
  (t.nodes.map (fun nd => nd.id)).Nodup ∧
  ∀ nd ∈ t.nodes, ∀ p, nd.parentId = some p →
    p ≠ nd.id ∧ ∃ m ∈ t.nodes, m.id = p

/-!
## Conversation lock (modelled from the spec)

The coordinator-side handler of `REQUEST_CONVERSATION_LOCK` is not among
the provided sources (`conversation_presence.js` only contains the client
that posts the request).
-/

/-- A lock entry (`{holderInstanceId, tabId, windowId, lastUpdated}`). -/
structure LockEntry where
  instanceId : String
  tabId : Option Int
  windowId : Option Int
  lastUpdated : Int
deriving DecidableEq

/-- Result of a lock request: granted, or denied carrying the holder. -/
inductive LockResult where
  | granted
  | denied (holder : LockEntry)
deriving DecidableEq

/-- Modelled from the spec: the coordinator's `requestLock(conversationId,
instanceId, {force})` — grant if no existing lock, or if the existing
holder is the same instance, or if `force` is set; otherwise deny with the
current holder's identity. On grant the lock map records the requester. -/
def requestConversationLock (locks : List (String × LockEntry))
    (conversationId instanceId : String) (force : Bool)
    (tabId windowId : Option Int) (now : Int) :
    LockResult × List (String × LockEntry) :=
  let entry : LockEntry := ⟨instanceId, tabId, windowId, now⟩
  match List.lookup conversationId locks with
  | none => (.granted, upsert conversationId entry locks)
  | some holder =>
    if holder.instanceId == instanceId then (.granted, upsert conversationId entry locks)
    else if force then (.granted, upsert conversationId entry locks)
    else (.denied holder, locks)

/-!
## Specification-side (declarative) descriptions used by the claims
-/

/-- Number of nodes of mapped role `r` in a list. -/
def countRoleM (r : String) (l : List MsgNode) : Nat :=
  l.countP (fun nd => mapRole nd.role == r)

/-- Declarative description of the backward role-capped scan, per chain
index `i` holding node `nd`: a user node is kept iff it is among the last
`maxUserMessages` user nodes, an assistant node iff it is among the last
`maxAssistantMessages` assistant nodes, and a system node iff the scan
window still reaches it (no break strictly after position `i`, i.e. the two
finite caps are not both already satisfied by the nodes after `i`). -/
def specSelByRole (chain : List MsgNode) (uCap aCap : Option Nat)
    (i : Nat) (nd : MsgNode) : Bool :=
  let after := chain.drop (i + 1)
  let r := mapRole nd.role
  if r == "user" then underLimit (countRoleM "user" after) uCap
  else if r == "assistant" then underLimit (countRoleM "assistant" after) aCap
  else
    !(decide (i + 1 < chain.length)
      && capReached (countRoleM "user" after) uCap
      && capReached (countRoleM "assistant" after) aCap
      && uCap.isSome && aCap.isSome)

/-- Declarative description of the chain's final user message: a user-mapped
node with no user-mapped node after it. -/
def specLastUser (chain : List MsgNode) (i : Nat) (nd : MsgNode) : Bool :=
  mapRole nd.role == "user" && countRoleM "user" (chain.drop (i + 1)) == 0

/-- The selected-flag of the backward scan at position `k` from the newest
end, given the counts `cu`/`ca` of user/assistant nodes among the `k` newer
positions: a user/assistant node is kept while its counter is below its
cap; a system node is kept unless the scan already stopped (both finite
caps satisfied by the newer nodes, and at least one newer node exists). -/
def condAt (uCap aCap : Option Nat) (nd : MsgNode) (cu ca : Nat) (k : Nat) : Bool :=
  if mapRole nd.role == "user" then underLimit cu uCap
  else if mapRole nd.role == "assistant" then underLimit ca aCap
  else
    !(decide (1 ≤ k) && capReached cu uCap && capReached ca aCap
      && uCap.isSome && aCap.isSome)

/-- The `previousIsUser` flag seen by `applyUserMessageSpacing` at position
`j` (the initial flag for `j = 0`, otherwise whether message `j - 1` is a
user message). -/
def prevFlag (prev : Bool) (ms : List ComposedMessage) : Nat → Bool
  | 0 => prev
  | k + 1 =>
    match ms.get? k with
    | some m => m.role == "user"
    | none => false

/-!
## Helper lemmas
-/

theorem lookup_upsert_self {β : Type} (k : String) (v : β) (l : List (String × β)) :
    List.lookup k (upsert k v l) = some v := by
  induction l with
  | nil => simp [upsert, List.lookup]
  | cons p rest ih =>
    obtain ⟨k', v'⟩ := p
    by_cases h : k' = k
    · simp [upsert, h, List.lookup]
    · have h1 : (k' == k) = false := by simp [h]
      have h2 : (k == k') = false := by simp [Ne.symm h]
      simp [upsert, h1, List.lookup, h2, ih]

/-!
### C3 — regenerate-mode clipping
-/

/-- C3: with `regenerateMode` set and a non-empty target `messageId`,
`composeMessages` on the full chain equals `composeMessages` on the chain
clipped at (and including) the first node carrying that id, so nothing
after the target reaches the output; when no chain node carries the id,
the result equals composition over the full chain (silent fallback, no
error, nothing dropped). -/
theorem composeMessages_regenerate_clips (clean : String → String) (args : ComposeArgs)
    (mid : String) (hr : args.regenerateMode = true) (hm : args.messageId = some mid)
    (hne : mid ≠ "") :
    (∀ j, args.conversationChain.findIdx? (fun nd => nd.id == mid) = some j →
      composeMessages clean args =
        composeMessages clean
          { args with regenerateMode := false,
                      conversationChain := args.conversationChain.take (j + 1) }) ∧
    (args.conversationChain.findIdx? (fun nd => nd.id == mid) = none →
      composeMessages clean args = composeMessages clean { args with regenerateMode := false }) := by
  have hbne : (mid != "") = true := by simp [bne_iff_ne, hne]
  constructor
  · intro j hj
    have h1 : effectiveChain args = args.conversationChain.take (j + 1) := by
      unfold effectiveChain
      rw [hm]
      simp [hr, hbne, hj]
    have h2 : effectiveChain
        { args with regenerateMode := false,
                    conversationChain := args.conversationChain.take (j + 1) }
        = args.conversationChain.take (j + 1) := by
      unfold effectiveChain
      rw [hm]
      simp
    unfold composeMessages composeRaw
    rw [h1, h2]
    rfl
  · intro hj
    have h1 : effectiveChain args = args.conversationChain := by
      unfold effectiveChain
      rw [hm]
      simp [hr, hbne, hj]
    have h2 : effectiveChain { args with regenerateMode := false } = args.conversationChain := by
      unfold effectiveChain
      rw [hm]
      simp
    unfold composeMessages composeRaw
    rw [h1, h2]
    rfl

/-- Witness for C3 at a concrete input. -/
theorem composeMessages_regenerate_clips_witness :
    (⟨none, [], none, false, true, some "a1",
      [⟨"u1", "user", .str "hi", none⟩, ⟨"a1", "ai", .str "yo", none⟩,
       ⟨"u2", "user", .str "later", none⟩],
      true, none, none, none⟩ : ComposeArgs).regenerateMode = true ∧
    composeMessages id
      ⟨none, [], none, false, true, some "a1",
        [⟨"u1", "user", .str "hi", none⟩, ⟨"a1", "ai", .str "yo", none⟩,
         ⟨"u2", "user", .str "later", none⟩],
        true, none, none, none⟩
      = composeMessages id
        ⟨none, [], none, false, false, some "a1",
          [⟨"u1", "user", .str "hi", none⟩, ⟨"a1", "ai", .str "yo", none⟩],
          true, none, none, none⟩ := by
  refine ⟨rfl, ?_⟩
  have h := (composeMessages_regenerate_clips id
    ⟨none, [], none, false, true, some "a1",
      [⟨"u1", "user", .str "hi", none⟩, ⟨"a1", "ai", .str "yo", none⟩,
       ⟨"u2", "user", .str "later", none⟩],
      true, none, none, none⟩ "a1" rfl rfl (by decide)).1 1 (by decide)
  exact h

/-!
### C9 — conversation-lock grant/deny (modelled from the spec)
-/

/-- C9: a lock request is granted when no lock entry exists for the
conversation, when the existing holder has the requester's `instanceId`
(so two requests by the same instance both succeed), or when `force` is
set; a request by a different instance without `force` is denied and the
denial carries the current holder. -/
theorem requestConversationLock_spec (locks : List (String × LockEntry))
    (c i : String) (force : Bool) (tabId windowId : Option Int) (now now2 : Int) :
    (List.lookup c locks = none →
       (requestConversationLock locks c i force tabId windowId now).1 = .granted) ∧
    (∀ h, List.lookup c locks = some h → h.instanceId = i →
       (requestConversationLock locks c i force tabId windowId now).1 = .granted) ∧
    (force = true →
       (requestConversationLock locks c i force tabId windowId now).1 = .granted) ∧
    (∀ h, List.lookup c locks = some h → h.instanceId ≠ i → force = false →
       (requestConversationLock locks c i force tabId windowId now).1 = .denied h) ∧
    ((requestConversationLock locks c i force tabId windowId now).1 = .granted →
       (requestConversationLock
          (requestConversationLock locks c i force tabId windowId now).2
          c i false tabId windowId now2).1 = .granted) := by
  refine ⟨?_, ?_, ?_, ?_, ?_⟩
  · intro h
    simp [requestConversationLock, h]
  · intro h hl hi
    simp [requestConversationLock, hl, hi]
  · intro hf
    unfold requestConversationLock
    cases hl : List.lookup c locks with
    | none => simp
    | some holder =>
      by_cases hi : holder.instanceId = i
      · simp [hi]
      · have : (holder.instanceId == i) = false := by simp [hi]
        simp [this, hf]
  · intro h hl hi hf
    have : (h.instanceId == i) = false := by simp [hi]
    simp [requestConversationLock, hl, this, hf]
  · intro hg
    unfold requestConversationLock at hg ⊢
    cases hl : List.lookup c locks with
    | none =>
      simp only [hl]
      rw [lookup_upsert_self]
      simp
    | some holder =>
      rw [hl] at hg
      by_cases hi : holder.instanceId = i
      · simp only [hl, hi]
        simp only [beq_self_eq_true, if_true]
        rw [lookup_upsert_self]
        simp
      · have hne : (holder.instanceId == i) = false := by simp [hi]
        simp only [hl, hne] at hg ⊢
        by_cases hf : force
        · simp only [hf, if_true, if_false, Bool.false_eq_true]
          rw [lookup_upsert_self]
          simp
        · simp [hf] at hg

/-- Witness for C9 at a concrete input. -/
theorem requestConversationLock_spec_witness :
    List.lookup "conv" ([] : List (String × LockEntry)) = none ∧
    (requestConversationLock [] "conv" "inst1" false (some 1) (some 2) 10).1 = .granted := by
  exact ⟨rfl, (requestConversationLock_spec [] "conv" "inst1" false (some 1) (some 2) 10 11).1 rfl⟩

theorem mapRole_cases (r : String) :
    mapRole r = "user" ∨ mapRole r = "assistant" ∨ mapRole r = "system" := by
  unfold mapRole
  by_cases h1 : r = "user"
  · simp [h1]
  · by_cases h2 : r = "assistant"
    · simp [h1, h2]
    · by_cases h3 : r = "system"
      · simp [h1, h2, h3]
      · by_cases h4 : r = "ai" <;> simp [h1, h2, h3, h4]

theorem spaceMsg_role (b : Bool) (m : ComposedMessage) : (spaceMsg b m).role = m.role := by
  unfold spaceMsg
  split
  · cases m.content with
    | str s =>
      simp only
      split <;> rfl
    | parts ps => rfl
  · rfl

theorem spaceMsg_false (m : ComposedMessage) : spaceMsg false m = m := by
  unfold spaceMsg
  simp

theorem spacingGo_length (prev : Bool) (ms : List ComposedMessage) :
    (spacingGo prev ms).length = ms.length := by
  induction ms generalizing prev with
  | nil => rfl
  | cons m rest ih => simp [spacingGo, ih]

theorem prevFlag_cons (prev : Bool) (m : ComposedMessage) (rest : List ComposedMessage)
    (j : Nat) : prevFlag prev (m :: rest) (j + 1) = prevFlag (m.role == "user") rest j := by
  cases j with
  | zero => rfl
  | succ k => rfl

theorem spacingGo_get? (prev : Bool) (ms : List ComposedMessage) (j : Nat) :
    (spacingGo prev ms).get? j = (ms.get? j).map (spaceMsg (prevFlag prev ms j)) := by
  induction ms generalizing prev j with
  | nil => cases j <;> rfl
  | cons m rest ih =>
    cases j with
    | zero => rfl
    | succ k =>
      show (spacingGo (m.role == "user") rest).get? k = _
      rw [ih (m.role == "user") k, prevFlag_cons]
      rfl

theorem spacingGo_map_role (prev : Bool) (ms : List ComposedMessage) :
    (spacingGo prev ms).map (fun m => m.role) = ms.map (fun m => m.role) := by
  induction ms generalizing prev with
  | nil => rfl
  | cons m rest ih => simp [spacingGo, spaceMsg_role, ih]

theorem strStartsWith_append_self (p s : String) :
    strStartsWith (p ++ s) p = true := by
  unfold strStartsWith
  rw [String.data_append]
  generalize p.data = l
  generalize s.data = r
  induction l with
  | nil => cases r <;> rfl
  | cons c cs ih => simp [strStartsWith.go, ih]

/-!
### C4 — tree deletion with re-parenting (modelled from the spec)
-/

theorem find?_id_eq_self {nodes : List TreeNode} (hnd : (nodes.map (fun nd => nd.id)).Nodup)
    {n : TreeNode} (hn : n ∈ nodes) : nodes.find? (fun nd => nd.id == n.id) = some n := by
  induction nodes with
  | nil => cases hn
  | cons a rest ih =>
    rw [List.map_cons, List.nodup_cons] at hnd
    rcases List.mem_cons.mp hn with h | h
    · subst h
      simp [List.find?_cons]
    · have hne : a.id ≠ n.id := by
        intro he
        exact hnd.1 (he ▸ (List.mem_map.mpr ⟨n, h, rfl⟩))
      have : (a.id == n.id) = false := by simp [hne]
      rw [List.find?_cons, this]
      exact ih hnd.2 h

theorem map_id_filter_ne (nid : String) (l : List TreeNode) (f : TreeNode → TreeNode)
    (hf : ∀ nd, (f nd).id = nd.id) :
    ((l.map f).filter (fun nd => nd.id != nid)).map (fun nd => nd.id)
      = (l.map (fun nd => nd.id)).filter (fun x => x != nid) := by
  induction l with
  | nil => rfl
  | cons a rest ih =>
    simp only [List.map_cons, List.filter_cons, hf a]
    cases h : (a.id != nid) with
    | true => simp [List.map_cons, hf a, ih]
    | false => simp [ih]

/-- C4: deleting an existing node succeeds, re-parents each of its direct
children to its parent, preserves the relative order of all surviving
nodes (hence of the children), and leaves no orphan (the tree stays
well-formed); deleting an id not present in the tree changes nothing and
returns `false`. -/
theorem deleteNode_spec (t : ConversationTree) (hwf : TreeWF t) :
    (∀ n ∈ t.nodes,
      (deleteNode t n.id).2 = true ∧
      (∀ c ∈ t.nodes, c.parentId = some n.id →
         ∃ c' ∈ (deleteNode t n.id).1.nodes, c'.id = c.id ∧ c'.parentId = n.parentId) ∧
      ((deleteNode t n.id).1.nodes.map (fun nd => nd.id)
         = (t.nodes.map (fun nd => nd.id)).filter (fun x => x != n.id)) ∧
      (∀ c' ∈ (deleteNode t n.id).1.nodes, ∀ p, c'.parentId = some p →
         ∃ m ∈ (deleteNode t n.id).1.nodes, m.id = p)) ∧
    (∀ nid, (∀ nd ∈ t.nodes, nd.id ≠ nid) → deleteNode t nid = (t, false)) := by
  obtain ⟨hnd, hpar⟩ := hwf
  constructor
  · intro n hn
    have hfind : t.nodes.find? (fun nd => nd.id == n.id) = some n := find?_id_eq_self hnd hn
    have hdel : deleteNode t n.id =
        (⟨(t.nodes.map (fun nd =>
             if nd.parentId == some n.id then ⟨nd.id, n.parentId, nd.role, nd.content⟩ else nd)).filter
             (fun nd => nd.id != n.id),
          if t.head == some n.id then n.parentId else t.head⟩, true) := by
      unfold deleteNode
      rw [hfind]
    set reparent := fun nd : TreeNode =>
      if nd.parentId == some n.id then (⟨nd.id, n.parentId, nd.role, nd.content⟩ : TreeNode) else nd
      with hrep
    have hrepid : ∀ nd : TreeNode, (reparent nd).id = nd.id := by
      intro nd
      rw [hrep]
      by_cases h : nd.parentId = some n.id <;> simp [h]
    refine ⟨by rw [hdel], ?_, ?_, ?_⟩
    · -- children are re-parented and survive
      intro c hc hcp
      have hcneq : c.id ≠ n.id := by
        intro he
        have := (hpar c hc n.id hcp).1
        exact this he.symm
      refine ⟨reparent c, ?_, ?_, ?_⟩
      · rw [hdel]
        simp only
        apply List.mem_filter.mpr
        refine ⟨List.mem_map.mpr ⟨c, hc, rfl⟩, ?_⟩
        rw [hrepid]
        simp [hcneq]
      · exact hrepid c
      · rw [hrep]
        simp [hcp]
    · -- id sequence of the survivors
      rw [hdel]
      simp only
      exact map_id_filter_ne n.id t.nodes reparent hrepid
    · -- no orphans
      intro c' hc' p hp
      rw [hdel] at hc'
      simp only at hc'
      have hc'f := List.mem_filter.mp hc'
      obtain ⟨c, hc, hcc⟩ := List.mem_map.mp hc'f.1
      have hcid : c'.id ≠ n.id := by
        have := hc'f.2
        simpa [bne_iff_ne] using this
      -- two cases: c was re-parented or not
      by_cases hcp : c.parentId = some n.id
      · -- re-parented: new parent is n's parent
        have hc'eq : c' = ⟨c.id, n.parentId, c.role, c.content⟩ := by
          rw [← hcc, hrep]
          simp [hcp]
        have hnp : n.parentId = some p := by rw [hc'eq] at hp; exact hp
        obtain ⟨hpne, m, hm, hmid⟩ := hpar n hn p hnp
        refine ⟨reparent m, ?_, ?_⟩
        · rw [hdel]
          simp only
          apply List.mem_filter.mpr
          refine ⟨List.mem_map.mpr ⟨m, hm, rfl⟩, ?_⟩
          rw [hrepid, hmid]
          simp [hpne]
        · rw [hrepid]; exact hmid
      · -- not re-parented
        have hc'eq : c' = c := by rw [← hcc, hrep]; simp [hcp]
        have hcpp : c.parentId = some p := by rw [hc'eq] at hp; exact hp
        have hpn : p ≠ n.id := by
          intro he
          exact hcp (by rw [hcpp, he])
        obtain ⟨hpne, m, hm, hmid⟩ := hpar c hc p hcpp
        refine ⟨reparent m, ?_, ?_⟩
        · rw [hdel]
          simp only
          apply List.mem_filter.mpr
          refine ⟨List.mem_map.mpr ⟨m, hm, rfl⟩, ?_⟩
          rw [hrepid, hmid]
          simp [hpn]
        · rw [hrepid]; exact hmid
  · intro nid hmiss
    have : t.nodes.find? (fun nd => nd.id == nid) = none := by
      apply List.find?_eq_none.mpr
      intro nd hnd'
      simp [hmiss nd hnd']
    unfold deleteNode
    rw [this]

/-!
### C10 — role mapping of composed messages
-/

theorem systemPart_roles (args : ComposeArgs) :
    ∀ m ∈ systemPart args, m.role = "system" := by
  intro m hm
  unfold systemPart at hm
  split at hm
  · cases hm
  · rcases List.mem_singleton.mp hm with rfl
    rfl

theorem historyPart_roles (clean : String → String) (args : ComposeArgs)
    (eff : List MsgNode) :
    ∀ m ∈ historyPart clean args eff,
      m.role = "user" ∨ m.role = "assistant" ∨ m.role = "system" := by
  intro m hm
  unfold historyPart at hm
  split at hm
  · split at hm
    · obtain ⟨nd, _, rfl⟩ := List.mem_map.mp hm
      exact mapRole_cases nd.role
    · split at hm
      · cases hm
      · split at hm
        · split at hm
          · obtain ⟨nd, _, rfl⟩ := List.mem_map.mp hm
            exact mapRole_cases nd.role
          · obtain ⟨nd, _, rfl⟩ := List.mem_map.mp hm
            exact mapRole_cases nd.role
        · obtain ⟨nd, _, rfl⟩ := List.mem_map.mp hm
          exact mapRole_cases nd.role
  · split at hm
    · rcases List.mem_singleton.mp hm with rfl
      exact mapRole_cases _
    · cases hm

theorem fallbackPart_roles (clean : String → String) (args : ComposeArgs)
    (eff : List MsgNode) (base : List ComposedMessage) :
    ∀ m ∈ fallbackPart clean args eff base, m.role = "user" := by
  intro m hm
  unfold fallbackPart at hm
  split at hm
  · split at hm
    · cases hm
    · split at hm
      · rcases List.mem_singleton.mp hm with rfl
        rfl
      · cases hm
  · cases hm

/-- C10: every composed message's role is `'system'`, `'user'` or
`'assistant'`; the legacy internal `'ai'` role maps to `'assistant'` and
any other unrecognized role maps to `'user'`, which is exactly how chain
nodes surface in the output (under the plain keep-everything policy the
output roles are the system part followed by `mapRole` of each chain
node's role). -/
theorem composeMessages_role_mapping :
    (∀ (clean : String → String) (args : ComposeArgs),
       ∀ m ∈ composeMessages clean args,
         m.role = "system" ∨ m.role = "user" ∨ m.role = "assistant") ∧
    mapRole "ai" = "assistant" ∧
    (∀ r, r ≠ "user" → r ≠ "assistant" → r ≠ "system" → r ≠ "ai" → mapRole r = "user") ∧
    (∀ (clean : String → String) (args : ComposeArgs),
       args.sendChatHistory = true → args.maxUserHistory = none →
       args.maxAssistantHistory = none → args.maxHistory = none →
       (composeMessages clean args).map (fun m => m.role)
         = (systemPart args).map (fun m => m.role)
           ++ (effectiveChain args).map (fun nd => mapRole nd.role)) := by
  refine ⟨?_, rfl, ?_, ?_⟩
  · intro clean args m hm
    have hrole : m.role ∈ (composeRaw clean args).map (fun m => m.role) := by
      rw [← spacingGo_map_role false]
      exact List.mem_map.mpr ⟨m, hm, rfl⟩
    obtain ⟨m0, hm0, hr0⟩ := List.mem_map.mp hrole
    rw [← hr0]
    unfold composeRaw at hm0
    rcases List.mem_append.mp hm0 with hb | hf
    · rcases List.mem_append.mp hb with hsys | hhist
      · exact Or.inl (systemPart_roles args m0 hsys)
      · rcases historyPart_roles clean args _ m0 hhist with h | h | h
        · exact Or.inr (Or.inl h)
        · exact Or.inr (Or.inr h)
        · exact Or.inl h
    · exact Or.inr (Or.inl (fallbackPart_roles clean args _ _ m0 hf))
  · intro r h1 h2 h3 h4
    unfold mapRole
    simp [h1, h2, h3, h4]
  · intro clean args h1 h2 h3 h4
    have hraw : composeRaw clean args
        = systemPart args ++ (effectiveChain args).map (msgOfNode clean) := by
      unfold composeRaw historyPart fallbackPart
      simp [h1, h2, h3, h4, normalizeOptionalNonNegativeInt]
    unfold composeMessages applyUserMessageSpacing
    rw [spacingGo_map_role, hraw, List.map_append, List.map_map]
    rfl

/-- Witness for C10 at a concrete input (an unrecognized role surfacing as
a user message). -/
theorem composeMessages_role_mapping_witness :
    (⟨"user", .str "x", none⟩ : ComposedMessage) ∈
      composeMessages id
        ⟨none, [], none, false, false, none,
         [⟨"u1", "weird", .str "x", none⟩], true, none, none, none⟩ ∧
    ((⟨"user", .str "x", none⟩ : ComposedMessage).role = "system" ∨
     (⟨"user", .str "x", none⟩ : ComposedMessage).role = "user" ∨
     (⟨"user", .str "x", none⟩ : ComposedMessage).role = "assistant") := by
  refine ⟨by decide, ?_⟩
  exact composeMessages_role_mapping.1 id
    ⟨none, [], none, false, false, none,
     [⟨"u1", "weird", .str "x", none⟩], true, none, none, none⟩
    ⟨"user", .str "x", none⟩ (by decide)

/-!
### C6 — separator between consecutive user messages
-/

/-- C6 counterexample: in a composed output two adjacent user messages where
the second carries legacy array content — its content is left untouched and
does not begin with the separator, refuting the claim as stated. -/
theorem composeMessages_spacing_counterexample :
    (composeMessages id
      ⟨none, [], none, false, false, none,
       [⟨"u1", "user", .str "a", none⟩, ⟨"u2", "user", .parts ["img"], none⟩],
       true, none, none, none⟩).get? 0 = some ⟨"user", .str "a", none⟩ ∧
    (composeMessages id
      ⟨none, [], none, false, false, none,
       [⟨"u1", "user", .str "a", none⟩, ⟨"u2", "user", .parts ["img"], none⟩],
       true, none, none, none⟩).get? 1 = some ⟨"user", .parts ["img"], none⟩ := by
  constructor
  · rfl
  · rfl

/-- C6 (amended): in every composed output, when two user messages are
adjacent and the second one's content is a plain string, that content
begins with the separator; and a message following a non-user message is
never modified by the spacing pass. -/
theorem composeMessages_spacing_spec :
    (∀ (clean : String → String) (args : ComposeArgs) (j : Nat)
       (mj mj1 : ComposedMessage),
       (composeMessages clean args).get? j = some mj →
       (composeMessages clean args).get? (j + 1) = some mj1 →
       mj.role = "user" → mj1.role = "user" →
       ∀ s, mj1.content = .str s → strStartsWith s USER_MESSAGE_SEPARATOR = true) ∧
    (∀ (ms : List ComposedMessage) (j : Nat) (mj : ComposedMessage),
       ms.get? j = some mj → mj.role ≠ "user" →
       (applyUserMessageSpacing ms).get? (j + 1) = ms.get? (j + 1)) := by
  constructor
  · intro clean args j mj mj1 h1 h2 hr1 hr2 s hs
    unfold composeMessages applyUserMessageSpacing at h1 h2
    rw [spacingGo_get?] at h1 h2
    set raw := composeRaw clean args with hraw
    cases hr0 : raw.get? j with
    | none => rw [hr0] at h1; cases h1
    | some r0 =>
      cases hr01 : raw.get? (j + 1) with
      | none => rw [hr01] at h2; cases h2
      | some r1 =>
        rw [hr0] at h1
        rw [hr01] at h2
        simp only [Option.map_some', Option.some.injEq] at h1 h2
        -- previous flag at j + 1 is raw[j].role == "user"
        have hflag : prevFlag false raw (j + 1) = (r0.role == "user") := by
          simp only [prevFlag, hr0]
        have hr0role : r0.role = "user" := by
          have := spaceMsg_role (prevFlag false raw j) r0
          rw [h1] at this
          rw [← this, hr1]
        rw [hr0role] at hflag
        simp only [beq_self_eq_true] at hflag
        rw [hflag] at h2
        -- now mj1 = spaceMsg true r1 with r1.role = "user"
        have hr1role : r1.role = "user" := by
          have := spaceMsg_role true r1
          rw [h2] at this
          rw [← this, hr2]
        unfold spaceMsg at h2
        rw [hr1role] at h2
        simp only [beq_self_eq_true, Bool.and_self, if_true] at h2
        cases hc : r1.content with
        | str s0 =>
          rw [hc] at h2
          dsimp only at h2
          by_cases hst : strStartsWith s0 USER_MESSAGE_SEPARATOR
          · rw [if_pos hst] at h2
            rw [← h2] at hs
            rw [hc] at hs
            cases hs
            exact hst
          · rw [if_neg hst] at h2
            rw [← h2] at hs
            simp only at hs
            cases hs
            exact strStartsWith_append_self USER_MESSAGE_SEPARATOR s0
        | parts ps =>
          rw [hc] at h2
          dsimp only at h2
          rw [← h2] at hs
          rw [hc] at hs
          cases hs
  · intro ms j mj hj hrole
    unfold applyUserMessageSpacing
    rw [spacingGo_get?]
    have hflag : prevFlag false ms (j + 1) = (mj.role == "user") := by
      simp only [prevFlag, hj]
    have : (mj.role == "user") = false := by simp [hrole]
    rw [hflag, this]
    cases h : ms.get? (j + 1) with
    | none => rfl
    | some m => simp [spaceMsg_false]

/-- Witness for C6 at a concrete input (two adjacent string-content user
messages; the second begins with the separator). -/
theorem composeMessages_spacing_spec_witness :
    (composeMessages id
      ⟨none, [], none, false, false, none,
       [⟨"u1", "user", .str "a", none⟩, ⟨"u2", "user", .str "b", none⟩],
       true, none, none, none⟩).get? 0 = some ⟨"user", .str "a", none⟩ ∧
    strStartsWith ("\n\n---\n\n" ++ "b") USER_MESSAGE_SEPARATOR = true := by
  refine ⟨rfl, ?_⟩
  exact composeMessages_spacing_spec.1 id
    ⟨none, [], none, false, false, none,
     [⟨"u1", "user", .str "a", none⟩, ⟨"u2", "user", .str "b", none⟩],
     true, none, none, none⟩ 0
    ⟨"user", .str "a", none⟩ ⟨"user", .str ("\n\n---\n\n" ++ "b"), none⟩
    rfl rfl rfl rfl ("\n\n---\n\n" ++ "b") rfl

/-!
### C1 — role-capped history selection: loop characterization
-/

theorem capReached_eq_not_under (cap : Option Nat) (x : Nat) :
    capReached x cap = !underLimit x cap := by
  cases cap with
  | none => rfl
  | some k =>
    by_cases h : x < k <;> simp [capReached, underLimit, h] <;> omega

theorem capReached_mono (cap : Option Nat) {x y : Nat} (hxy : x ≤ y)
    (hx : capReached x cap = true) : capReached y cap = true := by
  cases cap with
  | none => cases hx
  | some k =>
    simp only [capReached, decide_eq_true_eq] at hx ⊢
    omega

theorem underLimit_false_mono (cap : Option Nat) {x y : Nat} (hxy : x ≤ y)
    (hx : underLimit x cap = false) : underLimit y cap = false := by
  cases cap with
  | none => cases hx
  | some k =>
    simp only [underLimit, decide_eq_false_iff_not, Nat.not_lt] at hx ⊢
    omega

theorem bumpCount_le (cap : Option Nat) (u : Nat) (ru : Bool) :
    bumpCount u cap ru ≤ u + (if ru then 1 else 0) := by
  unfold bumpCount
  by_cases hr : ru
  · by_cases hu : underLimit u cap <;> simp [hr, hu]
  · simp [hr]

/-- Shifting the counter past a processed node: the loop's bumped counter
(`+1` only when the node was counted) and the specification's count (`+1`
whenever the node has the role) agree under every cap comparison. -/
theorem bump_under_shift (cap : Option Nat) (u m : Nat) (ru : Bool) :
    underLimit (bumpCount u cap ru + m) cap
      = underLimit (u + (if ru then 1 else 0) + m) cap := by
  unfold bumpCount
  by_cases hr : ru
  · by_cases hu : underLimit u cap
    · simp [hr, hu]
    · simp only [hr, Bool.true_and, hu, Bool.false_eq_true, if_false, if_true]
      rw [Bool.not_eq_true] at hu
      rw [underLimit_false_mono cap (x := u) (by omega) hu,
          underLimit_false_mono cap (x := u) (by omega) hu]
  · simp [hr]

theorem bump_cap_shift (cap : Option Nat) (u m : Nat) (ru : Bool) :
    capReached (bumpCount u cap ru + m) cap
      = capReached (u + (if ru then 1 else 0) + m) cap := by
  rw [capReached_eq_not_under, capReached_eq_not_under, bump_under_shift]

theorem markLoop_length (uCap aCap : Option Nat) :
    ∀ (L : List MsgNode) (u a : Nat), (markLoop uCap aCap L u a).length = L.length := by
  intro L
  induction L with
  | nil => intro u a; rfl
  | cons nd rest ih =>
    intro u a
    show (_ :: _).length = _
    rw [List.length_cons, List.length_cons]
    congr 1
    split
    · rw [List.length_map]
    · rw [ih]

theorem countRoleM_nil (r : String) : countRoleM r [] = 0 := rfl

theorem countRoleM_cons (r : String) (nd : MsgNode) (l : List MsgNode) :
    countRoleM r (nd :: l)
      = (if mapRole nd.role == r then 1 else 0) + countRoleM r l := by
  unfold countRoleM
  rw [List.countP_cons]
  by_cases h : (mapRole nd.role == r) <;> simp [h] <;> omega

theorem condAt_zero (uCap aCap : Option Nat) (nd : MsgNode) (u a : Nat) :
    condAt uCap aCap nd u a 0 = selFlag (mapRole nd.role) u a uCap aCap := by
  unfold condAt selFlag
  by_cases h1 : mapRole nd.role == "user"
  · simp [h1]
  · by_cases h2 : mapRole nd.role == "assistant" <;> simp [h1, h2]

/-- Characterization of the backward scan: the flag at position `k` is the
declarative `condAt` condition, with the counters advanced by the counts of
the `k` newer positions. -/
theorem markLoop_get? (uCap aCap : Option Nat) :
    ∀ (L : List MsgNode) (u a k : Nat),
      (markLoop uCap aCap L u a).get? k
        = (L.get? k).map (fun nd =>
            condAt uCap aCap nd (u + countRoleM "user" (L.take k))
              (a + countRoleM "assistant" (L.take k)) k) := by
  intro L
  induction L with
  | nil => intro u a k; cases k <;> rfl
  | cons nd rest ih =>
    intro u a k
    show (selFlag (mapRole nd.role) u a uCap aCap :: _).get? k = _
    cases k with
    | zero =>
      simp only [List.get?_cons_zero, List.take_zero, countRoleM_nil, Nat.add_zero,
        Option.map_some']
      rw [condAt_zero]
    | succ k =>
      rw [List.get?_cons_succ, List.get?_cons_succ, List.take_succ_cons,
        countRoleM_cons, countRoleM_cons]
      split
      · next hbrk =>
        -- the break fired right after this node: every newer flag is false,
        -- and the spec condition is false as well
        simp only [Bool.and_eq_true] at hbrk
        obtain ⟨⟨⟨h1, h2⟩, h3⟩, h4⟩ := hbrk
        rw [List.get?_map]
        cases hrk : rest.get? k with
        | none => rfl
        | some nd' =>
          simp only [Option.map_some', Option.some.injEq]
          have hcu : capReached (u + (if mapRole nd.role == "user" then 1 else 0)
              + countRoleM "user" (rest.take k)) uCap = true := by
            refine capReached_mono uCap ?_ h1
            have := bumpCount_le uCap u (mapRole nd.role == "user")
            omega
          have hca : capReached (a + (if mapRole nd.role == "assistant" then 1 else 0)
              + countRoleM "assistant" (rest.take k)) aCap = true := by
            refine capReached_mono aCap ?_ h2
            have := bumpCount_le aCap a (mapRole nd.role == "assistant")
            omega
          unfold condAt
          by_cases hu' : mapRole nd'.role == "user"
          · rw [if_pos hu']
            rw [capReached_eq_not_under] at hcu
            rw [← Nat.add_assoc]
            simp only [Bool.not_eq_true'] at hcu
            exact hcu.symm
          · by_cases ha' : mapRole nd'.role == "assistant"
            · rw [if_neg (by simp [hu']), if_pos ha']
              rw [capReached_eq_not_under] at hca
              rw [← Nat.add_assoc]
              simp only [Bool.not_eq_true'] at hca
              exact hca.symm
            · rw [if_neg (by simp [hu']), if_neg (by simp [ha'])]
              rw [← Nat.add_assoc, ← Nat.add_assoc]
              simp [h3, h4]
              exact ⟨by simpa using hcu, by simpa using hca⟩
      · next hbrk =>
        rw [ih]
        cases hrk : rest.get? k with
        | none => rfl
        | some nd' =>
          simp only [Option.map_some', Option.some.injEq]
          unfold condAt
          by_cases hu' : mapRole nd'.role == "user"
          · rw [if_pos hu', if_pos hu']
            rw [bump_under_shift, ← Nat.add_assoc]
          · by_cases ha' : mapRole nd'.role == "assistant"
            · rw [if_neg (by simp [hu']), if_pos ha', if_neg (by simp [hu']), if_pos ha']
              rw [bump_under_shift, ← Nat.add_assoc]
            · rw [if_neg (by simp [hu']), if_neg (by simp [ha']),
                  if_neg (by simp [hu']), if_neg (by simp [ha'])]
              rw [bump_cap_shift, bump_cap_shift, ← Nat.add_assoc, ← Nat.add_assoc]
              cases k with
              | zero =>
                -- at the next position "a newer break" is exactly the break test
                rw [Bool.not_eq_true] at hbrk
                simp only [List.take_zero, countRoleM_nil, Nat.add_zero]
                have e1 : capReached (bumpCount u uCap (mapRole nd.role == "user")) uCap
                    = capReached (u + (if mapRole nd.role == "user" then 1 else 0)) uCap := by
                  have := bump_cap_shift uCap u 0 (mapRole nd.role == "user")
                  simpa using this
                have e2 : capReached (bumpCount a aCap (mapRole nd.role == "assistant")) aCap
                    = capReached (a + (if mapRole nd.role == "assistant" then 1 else 0))
                        aCap := by
                  have := bump_cap_shift aCap a 0 (mapRole nd.role == "assistant")
                  simpa using this
                rw [e1, e2] at hbrk
                rw [show (decide (1 ≤ 0)) = false from rfl,
                    show (decide (1 ≤ 0 + 1)) = true from rfl]
                simp only [Bool.false_and, Bool.not_false, Bool.true_and]
                rw [hbrk]
                rfl
              | succ k' =>
                rw [show (decide (1 ≤ k' + 1)) = true from by simp,
                    show (decide (1 ≤ k' + 1 + 1)) = true from by simp]

theorem lastUser_none_iff :
    ∀ (l : List MsgNode), lastUserMappedIdx l = none ↔ countRoleM "user" l = 0 := by
  intro l
  induction l with
  | nil => simp [lastUserMappedIdx, countRoleM_nil]
  | cons nd rest ih =>
    rw [countRoleM_cons]
    unfold lastUserMappedIdx
    cases hr : lastUserMappedIdx rest with
    | some j =>
      simp only [hr]
      constructor
      · intro h; cases h
      · intro h
        have hcnt : countRoleM "user" rest = 0 := by omega
        have := ih.mpr hcnt
        rw [hr] at this
        cases this
    | none =>
      simp only [hr]
      by_cases hu : mapRole nd.role == "user"
      · simp only [hu, if_pos, if_true]
        constructor
        · intro h; cases h
        · intro h; omega
      · simp only [hu, Bool.false_eq_true, if_false]
        rw [ih] at hr
        simp [hr]

theorem lastUser_some_iff :
    ∀ (l : List MsgNode) (j : Nat),
      lastUserMappedIdx l = some j ↔
        (∃ hj : j < l.length, (mapRole (l.get ⟨j, hj⟩).role == "user") = true
          ∧ countRoleM "user" (l.drop (j + 1)) = 0) := by
  intro l
  induction l with
  | nil =>
    intro j
    constructor
    · intro h; cases h
    · rintro ⟨hj, _, _⟩; cases hj
  | cons nd rest ih =>
    intro j
    unfold lastUserMappedIdx
    cases hr : lastUserMappedIdx rest with
    | some j' =>
      cases j with
      | zero =>
        simp only [hr]
        constructor
        · intro h
          simp at h
        · rintro ⟨hj, hu, hcnt⟩
          exfalso
          have := (lastUser_none_iff rest).mpr (by simpa using hcnt)
          rw [hr] at this
          cases this
      | succ i =>
        simp only [hr]
        rw [show ((nd :: rest).drop (i + 1 + 1)) = rest.drop (i + 1) from rfl]
        constructor
        · intro h
          have hj' : j' = i := by simpa using h
          subst hj'
          obtain ⟨hj, hu, hcnt⟩ := (ih j').mp hr
          exact ⟨by simpa using Nat.succ_lt_succ hj, hu, hcnt⟩
        · rintro ⟨hj, hu, hcnt⟩
          have : lastUserMappedIdx rest = some i :=
            (ih i).mpr ⟨by simpa using hj, hu, hcnt⟩
          rw [hr] at this
          simpa using this
    | none =>
      by_cases hu : mapRole nd.role == "user"
      · simp only [hr, hu, if_pos, if_true]
        cases j with
        | zero =>
          constructor
          · intro _
            exact ⟨by simp, by simpa using hu,
              by simpa using (lastUser_none_iff rest).mp hr⟩
          · intro _; rfl
        | succ i =>
          constructor
          · intro h; simp at h
          · rintro ⟨hj, hu', hcnt⟩
            exfalso
            have : lastUserMappedIdx rest = some i :=
              (ih i).mpr ⟨by simpa using hj, hu', hcnt⟩
            rw [hr] at this
            cases this
      · simp only [hr, hu, Bool.false_eq_true, if_false]
        constructor
        · intro h; cases h
        · rintro ⟨hj, hu', hcnt⟩
          exfalso
          cases j with
          | zero => exact hu (by simpa using hu')
          | succ i =>
            have : lastUserMappedIdx rest = some i :=
              (ih i).mpr ⟨by simpa using hj, hu', hcnt⟩
            rw [hr] at this
            cases this

theorem specSel_eq_condAt (chain : List MsgNode) (uc ac : Option Nat) (i : Nat)
    (hi : i < chain.length) (nd : MsgNode) :
    specSelByRole chain uc ac i nd
      = condAt uc ac nd (countRoleM "user" (chain.drop (i + 1)))
          (countRoleM "assistant" (chain.drop (i + 1))) (chain.length - 1 - i) := by
  unfold specSelByRole condAt
  by_cases h1 : mapRole nd.role == "user"
  · simp [h1, countRoleM]
  · by_cases h2 : mapRole nd.role == "assistant"
    · simp [h1, h2, countRoleM]
    · simp only [h1, h2, Bool.false_eq_true, if_false]
      have hd : decide (i + 1 < chain.length) = decide (1 ≤ chain.length - 1 - i) := by
        rw [decide_eq_decide]
        omega
      rw [hd]

/-- The chronological selected-flags of `selectConversationNodesByRole`
(before the final-user fallback), pointwise. -/
theorem selectMarks_get? (chain : List MsgNode) (uc ac : Option Nat) (i : Nat)
    (hi : i < chain.length) :
    ((markLoop uc ac chain.reverse 0 0).reverse).get? i
      = some (specSelByRole chain uc ac i (chain.get ⟨i, hi⟩)) := by
  have hdl : (markLoop uc ac chain.reverse 0 0).length = chain.length := by
    rw [markLoop_length]
    exact List.length_reverse _
  have hcnt : ∀ r, countRoleM r (chain.reverse.take (chain.length - 1 - i))
      = countRoleM r (chain.drop (i + 1)) := by
    intro r
    rw [List.take_reverse]
    unfold countRoleM
    rw [List.countP_reverse]
    rw [show chain.length - (chain.length - 1 - i) = i + 1 from by omega]
  have hrev : chain.reverse.get? (chain.length - 1 - i) = some (chain.get ⟨i, hi⟩) := by
    rw [List.get?_eq_getElem?,
        List.getElem?_eq_getElem (by rw [List.length_reverse]; omega)]
    rw [List.getElem_reverse]
    simp only [show chain.length - 1 - (chain.length - 1 - i) = i from by omega]
    rw [List.get_eq_getElem]
  have h1 : (markLoop uc ac chain.reverse 0 0).get? (chain.length - 1 - i)
      = some (condAt uc ac (chain.get ⟨i, hi⟩)
          (countRoleM "user" (chain.drop (i + 1)))
          (countRoleM "assistant" (chain.drop (i + 1))) (chain.length - 1 - i)) := by
    rw [markLoop_get?, hrev]
    simp only [Option.map_some', Option.some.injEq]
    rw [hcnt "user", hcnt "assistant"]
    simp
  rw [List.get?_eq_getElem?,
      List.getElem?_reverse (by rw [hdl]; exact hi)]
  rw [show (markLoop uc ac chain.reverse 0 0).length - 1 - i
        = chain.length - 1 - i from by rw [hdl]]
  rw [← List.get?_eq_getElem?]
  rw [h1]
  rw [specSel_eq_condAt chain uc ac i hi]

/-- The selected-flags including the final-user fallback, pointwise: the
flag at `i` is the declarative per-role condition or "is the chain's final
user message". -/
theorem selectMarks2_get? (chain : List MsgNode) (uc ac : Option Nat) (i : Nat)
    (hi : i < chain.length) :
    (match lastUserMappedIdx chain with
      | some j => ((markLoop uc ac chain.reverse 0 0).reverse).set j true
      | none => (markLoop uc ac chain.reverse 0 0).reverse).get? i
      = some (specSelByRole chain uc ac i (chain.get ⟨i, hi⟩)
              || specLastUser chain i (chain.get ⟨i, hi⟩)) := by
  have hdl : ((markLoop uc ac chain.reverse 0 0).reverse).length = chain.length := by
    rw [List.length_reverse, markLoop_length]
    exact List.length_reverse _
  cases hl : lastUserMappedIdx chain with
  | none =>
    have hlu : specLastUser chain i (chain.get ⟨i, hi⟩) = false := by
      by_contra hne
      rw [Bool.not_eq_false] at hne
      unfold specLastUser at hne
      rw [Bool.and_eq_true] at hne
      obtain ⟨hu, hc⟩ := hne
      have : lastUserMappedIdx chain = some i := by
        refine (lastUser_some_iff chain i).mpr ⟨hi, hu, ?_⟩
        simpa using hc
      rw [hl] at this
      cases this
    rw [hlu, Bool.or_false]
    exact selectMarks_get? chain uc ac i hi
  | some j =>
    by_cases hij : i = j
    · subst hij
      have hlu : specLastUser chain i (chain.get ⟨i, hi⟩) = true := by
        obtain ⟨hj, hu, hc⟩ := (lastUser_some_iff chain i).mp hl
        unfold specLastUser
        rw [Bool.and_eq_true]
        refine ⟨hu, ?_⟩
        simpa using hc
      rw [hlu, Bool.or_true]
      rw [List.get?_eq_getElem?,
          List.getElem?_eq_getElem (by rw [List.length_set, hdl]; exact hi)]
      rw [List.getElem_set_self]
    · have hlu : specLastUser chain i (chain.get ⟨i, hi⟩) = false := by
        by_contra hne
        rw [Bool.not_eq_false] at hne
        unfold specLastUser at hne
        rw [Bool.and_eq_true] at hne
        obtain ⟨hu, hc⟩ := hne
        have : lastUserMappedIdx chain = some i := by
          refine (lastUser_some_iff chain i).mpr ⟨hi, hu, ?_⟩
          simpa using hc
        rw [hl] at this
        have hji : j = i := by simpa using this
        exact hij hji.symm
      rw [hlu, Bool.or_false]
      rw [List.get?_eq_getElem?,
          List.getElem?_eq_getElem (by rw [List.length_set, hdl]; exact hi)]
      rw [List.getElem_set_ne (by omega)]
      have := selectMarks_get? chain uc ac i hi
      rw [List.get?_eq_getElem?, List.getElem?_eq_getElem (by rw [hdl]; exact hi)] at this
      simpa using this

theorem filtered_pairs_shift {α : Type} (el : List (Nat × α)) (p : Nat → α → Bool) :
    ((el.map (fun q => (q.1 + 1, q.2))).filter (fun q => p q.1 q.2)).map (fun q => q.2)
      = (el.filter (fun q => p (q.1 + 1) q.2)).map (fun q => q.2) := by
  induction el with
  | nil => rfl
  | cons q rest ih =>
    simp only [List.map_cons, List.filter_cons]
    by_cases hq : p (q.1 + 1) q.2
    · simp [hq, ih]
    · simp [hq, ih]

/-- Emitting the flagged elements in order equals filtering the enumerated
list by the per-index predicate the flags compute. -/
theorem zip_flags_filter_eq_enum_filter {α : Type} :
    ∀ (l : List α) (flags : List Bool) (p : Nat → α → Bool),
      flags.length = l.length →
      (∀ i (hi : i < l.length), flags.get? i = some (p i (l.get ⟨i, hi⟩))) →
      ((l.zip flags).filter (fun q => q.2)).map (fun q => q.1)
        = (l.enum.filter (fun q => p q.1 q.2)).map (fun q => q.2) := by
  intro l
  induction l with
  | nil => intro flags p _ _; rfl
  | cons a rest ih =>
    intro flags p hlen hpt
    cases flags with
    | nil => simp at hlen
    | cons b fl =>
      have hb : b = p 0 a := by
        have := hpt 0 (by simp)
        simpa using this
      subst hb
      rw [List.enum_cons']
      have hmapeq : (rest.enum.map (Prod.map (· + 1) id))
          = rest.enum.map (fun q => (q.1 + 1, q.2)) := by
        apply List.map_congr_left
        intro q _
        cases q
        rfl
      rw [hmapeq]
      have htail := ih fl (fun i x => p (i + 1) x) (by simpa using hlen)
        (fun i hi => by
          have := hpt (i + 1) (by simpa using Nat.succ_lt_succ hi)
          simpa using this)
      simp only [List.zip_cons_cons, List.filter_cons]
      by_cases hpa : p 0 a
      · simp only [hpa, if_true, decide_eq_true_eq, List.map_cons]
        rw [htail, filtered_pairs_shift]
      · simp only [hpa, Bool.false_eq_true, if_false]
        rw [htail, filtered_pairs_shift]

/-- The selected history nodes are exactly the declaratively specified
ones (per-role rolling windows, in-window system nodes, plus the final
user message), in chronological order. -/
theorem selectByRole_eq_spec (chain : List MsgNode) (uc ac : Option Nat) :
    selectConversationNodesByRole chain uc ac
      = (chain.enum.filter (fun p =>
          specSelByRole chain uc ac p.1 p.2 || specLastUser chain p.1 p.2)).map
          (fun p => p.2) := by
  unfold selectConversationNodesByRole
  dsimp only
  exact zip_flags_filter_eq_enum_filter chain
    (match lastUserMappedIdx chain with
      | some j => ((markLoop uc ac chain.reverse 0 0).reverse).set j true
      | none => (markLoop uc ac chain.reverse 0 0).reverse)
    (fun i nd => specSelByRole chain uc ac i nd || specLastUser chain i nd)
    (by
      cases hl : lastUserMappedIdx chain with
      | none => simp only [List.length_reverse, markLoop_length]
      | some j => simp only [List.length_set, List.length_reverse, markLoop_length])
    (fun i hi => selectMarks2_get? chain uc ac i hi)

/-- C1 counterexample: with both caps set to `0` the claimed union (the
two per-role windows plus in-window system nodes) is empty, yet the code
additionally emits the chain's final user message — the selection is not
"exactly the union". -/
theorem selectByRole_union_counterexample :
    selectConversationNodesByRole [⟨"u1", "user", .str "hi", none⟩] (some 0) (some 0)
      = [⟨"u1", "user", .str "hi", none⟩] ∧
    (([⟨"u1", "user", .str "hi", none⟩] : List MsgNode).enum.filter (fun p =>
        specSelByRole [⟨"u1", "user", .str "hi", none⟩] (some 0) (some 0) p.1 p.2)).map
        (fun p => p.2) = [] := by
  constructor
  · rfl
  · rfl

/-- C1 (amended): with at least one role cap set, the history selection is
exactly the union of the last-`maxUserHistory` user nodes, the
last-`maxAssistantHistory` assistant nodes, the system nodes inside the
backward scan window, and additionally the chain's final user message, in
chronological order; in particular, with `maxUserHistory = 1` and
`maxAssistantHistory = 2` on a chain of 5 user and 5 assistant messages,
`composeMessages` returns exactly the last 1 user and last 2 assistant
nodes in original order. -/
theorem selectConversationNodesByRole_spec (chain : List MsgNode) (uc ac : Option Nat)
    (hcaps : uc.isSome = true ∨ ac.isSome = true) :
    selectConversationNodesByRole chain uc ac
      = (chain.enum.filter (fun p =>
          specSelByRole chain uc ac p.1 p.2 || specLastUser chain p.1 p.2)).map
          (fun p => p.2)
    ∧ composeMessages id
        ⟨none, [], none, false, false, none,
         [⟨"u1", "user", .str "U1", none⟩, ⟨"a1", "ai", .str "A1", none⟩,
          ⟨"u2", "user", .str "U2", none⟩, ⟨"a2", "ai", .str "A2", none⟩,
          ⟨"u3", "user", .str "U3", none⟩, ⟨"a3", "ai", .str "A3", none⟩,
          ⟨"u4", "user", .str "U4", none⟩, ⟨"a4", "ai", .str "A4", none⟩,
          ⟨"u5", "user", .str "U5", none⟩, ⟨"a5", "ai", .str "A5", none⟩],
         true, none, some 1, some 2⟩
      = [⟨"assistant", .str "A4", none⟩, ⟨"user", .str "U5", none⟩,
         ⟨"assistant", .str "A5", none⟩] := by
  exact ⟨selectByRole_eq_spec chain uc ac, rfl⟩

/-- Witness for C1 at a concrete input. -/
theorem selectConversationNodesByRole_spec_witness :
    ((some 1 : Option Nat).isSome = true ∨ (some 2 : Option Nat).isSome = true) ∧
    selectConversationNodesByRole [⟨"u1", "user", .str "hi", none⟩] (some 1) (some 2)
      = (([⟨"u1", "user", .str "hi", none⟩] : List MsgNode).enum.filter (fun p =>
          specSelByRole [⟨"u1", "user", .str "hi", none⟩] (some 1) (some 2) p.1 p.2
            || specLastUser [⟨"u1", "user", .str "hi", none⟩] p.1 p.2)).map
          (fun p => p.2) := by
  refine ⟨Or.inl rfl, ?_⟩
  exact (selectConversationNodesByRole_spec [⟨"u1", "user", .str "hi", none⟩]
    (some 1) (some 2) (Or.inl rfl)).1

/-!
### C2 — the final user message survives truncation
-/

theorem spaceMsg_not_user (m : ComposedMessage) (b : Bool)
    (h : (m.role == "user") = false) : spaceMsg b m = m := by
  unfold spaceMsg
  rw [h]
  simp

theorem spacingGo_no_user :
    ∀ (ms : List ComposedMessage) (prev : Bool),
      (∀ m ∈ ms, (m.role == "user") = false) → spacingGo prev ms = ms := by
  intro ms
  induction ms with
  | nil => intro prev _; rfl
  | cons m rest ih =>
    intro prev h
    have hm := h m (List.mem_cons_self m rest)
    show spaceMsg prev m :: spacingGo (m.role == "user") rest = m :: rest
    rw [hm, spaceMsg_not_user m prev hm,
        ih false (fun x hx => h x (List.mem_cons_of_mem m hx))]

/-- If the composed list holds exactly one user message, the spacing pass
leaves the list's user messages untouched (there is no user-user
adjacency). -/
theorem spacingGo_filter_user_single :
    ∀ (ms : List ComposedMessage) (u : ComposedMessage),
      ms.filter (fun m => m.role == "user") = [u] →
      (spacingGo false ms).filter (fun m => m.role == "user") = [u] := by
  intro ms
  induction ms with
  | nil =>
    intro u h
    cases h
  | cons m rest ih =>
    intro u h
    by_cases hm : (m.role == "user") = true
    · rw [@List.filter_cons_of_pos ComposedMessage (fun x => x.role == "user") m rest hm] at h
      injection h with h1 h2
      have hnr : ∀ x ∈ rest, (x.role == "user") = false := by
        intro x hx
        by_contra hb
        rw [Bool.not_eq_false] at hb
        have : x ∈ rest.filter (fun m => m.role == "user") :=
          List.mem_filter.mpr ⟨hx, hb⟩
        rw [h2] at this
        cases this
      show List.filter (fun m => m.role == "user")
          (spaceMsg false m :: spacingGo (m.role == "user") rest) = [u]
      rw [spaceMsg_false, hm, spacingGo_no_user rest true hnr,
          @List.filter_cons_of_pos ComposedMessage (fun x => x.role == "user") m rest hm,
          h2, h1]
    · rw [@List.filter_cons_of_neg ComposedMessage (fun x => x.role == "user") m rest hm] at h
      have hm' : (m.role == "user") = false := by simpa using hm
      show List.filter (fun m => m.role == "user")
          (spaceMsg false m :: spacingGo (m.role == "user") rest) = [u]
      rw [spaceMsg_false, hm']
      rw [@List.filter_cons_of_neg ComposedMessage (fun x => x.role == "user")
          m (spacingGo false rest) hm]
      exact ih u h

theorem filter_msgOfNode_user (clean : String → String) :
    ∀ (l : List MsgNode),
      ((l.map (msgOfNode clean)).filter (fun m => m.role == "user"))
        = (l.filter (fun nd => mapRole nd.role == "user")).map (msgOfNode clean) := by
  intro l
  induction l with
  | nil => rfl
  | cons nd rest ih =>
    simp only [List.map_cons, List.filter_cons]
    by_cases h : (mapRole nd.role == "user") = true
    · simp only [msgOfNode, h, if_true, List.map_cons]
      rw [ih]
    · simp only [msgOfNode, h, Bool.false_eq_true, if_false]
      exact ih

theorem enum_map_succ {α : Type} (l : List α) :
    (l.enum.map (Prod.map (· + 1) id)) = l.enum.map (fun q => (q.1 + 1, q.2)) := by
  apply List.map_congr_left
  intro q _
  cases q
  rfl

/-- If the per-index predicate holds at exactly one index, filtering the
enumerated list yields that single element. -/
theorem enum_filter_singleton {α : Type} :
    ∀ (l : List α) (p : Nat → α → Bool) (j : Nat) (hj : j < l.length),
      p j (l.get ⟨j, hj⟩) = true →
      (∀ i (hi : i < l.length), p i (l.get ⟨i, hi⟩) = true → i = j) →
      (l.enum.filter (fun q => p q.1 q.2)).map (fun q => q.2) = [l.get ⟨j, hj⟩] := by
  intro l
  induction l with
  | nil =>
    intro p j hj
    cases hj
  | cons a rest ih =>
    intro p j hj hpj huniq
    rw [List.enum_cons', enum_map_succ, List.filter_cons]
    cases j with
    | zero =>
      have hp0 : p 0 a = true := hpj
      rw [hp0]
      simp only [if_true, List.map_cons]
      have hnil : (rest.enum.map (fun q => (q.1 + 1, q.2))).filter
          (fun q => p q.1 q.2) = [] := by
        rw [List.filter_eq_nil_iff]
        intro x hx
        obtain ⟨q, hq, hxq⟩ := List.mem_map.mp hx
        have hmem := List.mem_enum_iff_getElem?.mp hq
        have hqlt : q.1 < rest.length := by
          by_contra hge
          rw [List.getElem?_eq_none (by omega)] at hmem
          cases hmem
        have hqv : rest.get ⟨q.1, hqlt⟩ = q.2 := by
          rw [List.get_eq_getElem]
          have := List.getElem?_eq_getElem (l := rest) hqlt
          rw [this] at hmem
          exact Option.some.inj hmem
        intro hpx
        rw [← hxq] at hpx
        have : q.1 + 1 = 0 := huniq (q.1 + 1) (by simpa using Nat.succ_lt_succ hqlt)
          (by rw [show (a :: rest).get ⟨q.1 + 1, by simpa using Nat.succ_lt_succ hqlt⟩
                = rest.get ⟨q.1, hqlt⟩ from rfl, hqv]; exact hpx)
        cases this
      rw [hnil]
      rfl
    | succ i =>
      have hp0 : p 0 a = false := by
        by_contra hb
        rw [Bool.not_eq_false] at hb
        have := huniq 0 (by simp) hb
        cases this
      rw [hp0]
      simp only [Bool.false_eq_true, if_false]
      have hi' : i < rest.length := by simpa using hj
      have := ih (fun k x => p (k + 1) x) i hi' hpj
        (fun k hk hp => by
          have := huniq (k + 1) (by simpa using Nat.succ_lt_succ hk) hp
          simpa using this)
      rw [filtered_pairs_shift]
      exact this

theorem lastUser_mem_select (chain : List MsgNode) (uc ac : Option Nat) (j : Nat)
    (hj : j < chain.length) (hl : lastUserMappedIdx chain = some j) :
    chain.get ⟨j, hj⟩ ∈ selectConversationNodesByRole chain uc ac := by
  rw [selectByRole_eq_spec]
  apply List.mem_map.mpr
  refine ⟨(j, chain.get ⟨j, hj⟩), ?_, rfl⟩
  apply List.mem_filter.mpr
  constructor
  · apply List.mem_enum_iff_getElem?.mpr
    rw [List.get_eq_getElem]
    exact List.getElem?_eq_getElem hj
  · obtain ⟨hj', hu, hc⟩ := (lastUser_some_iff chain j).mp hl
    have hlast : specLastUser chain j (chain.get ⟨j, hj⟩) = true := by
      unfold specLastUser
      rw [Bool.and_eq_true]
      refine ⟨hu, ?_⟩
      simpa using hc
    rw [Bool.or_eq_true]
    exact Or.inr hlast

theorem map_snd_filter_filter {α β : Type} (l : List (α × β)) (q : α × β → Bool)
    (r : β → Bool) :
    ((l.filter q).map (fun p => p.2)).filter r
      = (l.filter (fun p => q p && r p.2)).map (fun p => p.2) := by
  induction l with
  | nil => rfl
  | cons p rest ih =>
    simp only [List.filter_cons]
    by_cases hq : q p = true
    · by_cases hr : r p.2 = true
      · simp [hq, hr, ih]
      · simp [hq, hr, ih]
    · by_cases hr : r p.2 = true
      · simp [hq, hr, ih]
      · simp [hq, hr, ih]

/-- With `maxUserMessages = 0`, the only selected user-mapped node is the
chain's final user message. -/
theorem select_userFilter_cap_zero (chain : List MsgNode) (ac : Option Nat) (j : Nat)
    (hj : j < chain.length) (hl : lastUserMappedIdx chain = some j) :
    (selectConversationNodesByRole chain (some 0) ac).filter
        (fun nd => mapRole nd.role == "user") = [chain.get ⟨j, hj⟩] := by
  rw [selectByRole_eq_spec, map_snd_filter_filter]
  have hpred : ∀ p ∈ chain.enum,
      ((specSelByRole chain (some 0) ac p.1 p.2 || specLastUser chain p.1 p.2)
        && (mapRole p.2.role == "user")) = specLastUser chain p.1 p.2 := by
    intro p _
    by_cases hu : (mapRole p.2.role == "user") = true
    · have hsel : specSelByRole chain (some 0) ac p.1 p.2 = false := by
        unfold specSelByRole
        simp [hu, underLimit]
      rw [hsel, Bool.false_or, hu, Bool.and_true]
    · have hu' : (mapRole p.2.role == "user") = false := by simpa using hu
      have hlast : specLastUser chain p.1 p.2 = false := by
        unfold specLastUser
        rw [hu']
        simp
      rw [hlast, hu']
      simp
  rw [List.filter_congr hpred]
  apply enum_filter_singleton chain (fun i nd => specLastUser chain i nd) j hj
  · obtain ⟨hj', hu, hc⟩ := (lastUser_some_iff chain j).mp hl
    unfold specLastUser
    rw [Bool.and_eq_true]
    refine ⟨hu, ?_⟩
    simpa using hc
  · intro i hi hp
    unfold specLastUser at hp
    rw [Bool.and_eq_true] at hp
    obtain ⟨hu, hc⟩ := hp
    have : lastUserMappedIdx chain = some i := by
      refine (lastUser_some_iff chain i).mpr ⟨hi, hu, ?_⟩
      simpa using hc
    rw [hl] at this
    exact (Option.some.inj this).symm

theorem composeRaw_eq (clean : String → String) (args : ComposeArgs) :
    composeRaw clean args
      = (systemPart args ++ historyPart clean args (effectiveChain args))
        ++ fallbackPart clean args (effectiveChain args)
             (systemPart args ++ historyPart clean args (effectiveChain args)) := rfl

/-- The spacing step on a user message keeps the role and either keeps the
content or prepends the separator to a string content. -/
theorem spaceMsg_user_cases (b : Bool) (m : ComposedMessage) (hr : m.role = "user") :
    (spaceMsg b m).role = "user" ∧
      ((spaceMsg b m).content = m.content ∨
       ∃ s, m.content = .str s ∧
         (spaceMsg b m).content = .str (USER_MESSAGE_SEPARATOR ++ s)) := by
  obtain ⟨mr, mc, mt⟩ := m
  have hr2 : mr = "user" := hr
  subst hr2
  cases b with
  | false => exact ⟨rfl, Or.inl rfl⟩
  | true =>
    cases mc with
    | parts ps => exact ⟨rfl, Or.inl rfl⟩
    | str s =>
      unfold spaceMsg
      dsimp only
      by_cases hs : strStartsWith s USER_MESSAGE_SEPARATOR = true
      · rw [if_pos hs]
        exact ⟨rfl, Or.inl rfl⟩
      · rw [if_neg hs]
        exact ⟨rfl, Or.inr ⟨s, rfl, rfl⟩⟩

/-- Every user message of the input survives the spacing pass, with at most
the separator prefix added to a string content. -/
theorem spacingGo_mem_user :
    ∀ (ms : List ComposedMessage) (prev : Bool) (m : ComposedMessage),
      m ∈ ms → m.role = "user" →
      ∃ m2 ∈ spacingGo prev ms, m2.role = "user" ∧
        (m2.content = m.content ∨
         ∃ s, m.content = .str s ∧
           m2.content = .str (USER_MESSAGE_SEPARATOR ++ s)) := by
  intro ms
  induction ms with
  | nil =>
    intro prev m hm
    cases hm
  | cons x rest ih =>
    intro prev m hm hr
    rcases List.mem_cons.mp hm with rfl | hm2
    · obtain ⟨h1, h2⟩ := spaceMsg_user_cases prev m hr
      exact ⟨spaceMsg prev m, List.mem_cons_self _ _, h1, h2⟩
    · obtain ⟨m2, hmem2, hprops⟩ := ih (x.role == "user") m hm2 hr
      exact ⟨m2, List.mem_cons_of_mem _ hmem2, hprops⟩

/-- A user-mapped chain node whose composed message reaches the raw output
is present as a user turn in the final `composeMessages` output. -/
theorem compose_userTurnPresent (clean : String → String) (args : ComposeArgs)
    (nd : MsgNode) (hu : mapRole nd.role = "user")
    (hmem : msgOfNode clean nd ∈ composeRaw clean args) :
    userTurnPresent clean (composeMessages clean args) nd := by
  have hr : (msgOfNode clean nd).role = "user" := hu
  obtain ⟨m2, hm2, hrole, hcontent⟩ :=
    spacingGo_mem_user (composeRaw clean args) false (msgOfNode clean nd) hmem hr
  refine ⟨m2, hm2, hrole, ?_⟩
  rcases hcontent with h | ⟨s, hs, h⟩
  · exact Or.inl h
  · exact Or.inr ⟨s, hs, h⟩

/-- An element at an index at or past `k` is a member of `drop k`. -/
theorem get_mem_drop {α : Type} :
    ∀ (l : List α) (k j : Nat) (hj : j < l.length), k ≤ j →
      l.get ⟨j, hj⟩ ∈ l.drop k := by
  intro l
  induction l with
  | nil =>
    intro k j hj hk
    simp at hj
  | cons a rest ih =>
    intro k j hj hk
    cases k with
    | zero => exact List.get_mem _ _ _
    | succ k2 =>
      cases j with
      | zero => exact absurd hk (by omega)
      | succ j2 => exact ih k2 j2 (by simpa using hj) (by omega)

/-- C2 counterexample: under the legacy positive cap (`maxHistory = 1`) on
a chain whose last element is an assistant message, the output contains no
user message at all, although the chain's final user message exists — the
"regardless of policy" guarantee fails. -/
theorem composeMessages_final_user_counterexample :
    (composeMessages id
      ⟨none, [], none, false, false, none,
       [⟨"u1", "user", .str "hi", none⟩, ⟨"a1", "ai", .str "yo", none⟩],
       true, some 1, none, none⟩).filter (fun m => m.role == "user") = [] ∧
    lastRawUser [⟨"u1", "user", .str "hi", none⟩, ⟨"a1", "ai", .str "yo", none⟩]
      = some ⟨"u1", "user", .str "hi", none⟩ := by
  constructor
  · rfl
  · rfl

/-- C2 (amended): the chain's final user message is always present in the
`composeMessages` output under the role-based caps (any cap set), under the
legacy `maxHistory = 0` policy, and under the legacy no-cap policy
(`maxHistory` absent or negative — the whole chain is emitted); under a
legacy positive cap it is present whenever it lies inside the last-`N`
window of the (possibly clipped) chain; with history sending disabled, or
under the remaining legacy policies, it is present whenever the chain's
final message is itself a user message; with `maxUserHistory = 0` the
output contains exactly one user message, namely the latest user-mapped
node. (A node is "present" when a user-role message carries its sanitized
content, up to the separator prefix the spacing pass may prepend.) -/
theorem composeMessages_final_user :
    (∀ (chain : List MsgNode) (uc ac : Option Nat) (j : Nat) (hj : j < chain.length),
       lastUserMappedIdx chain = some j →
       chain.get ⟨j, hj⟩ ∈ selectConversationNodesByRole chain uc ac) ∧
    (∀ (clean : String → String) (args : ComposeArgs),
       args.sendChatHistory = true →
       ((normalizeOptionalNonNegativeInt args.maxUserHistory).isSome = true ∨
        (normalizeOptionalNonNegativeInt args.maxAssistantHistory).isSome = true) →
       (lastUserMappedIdx (effectiveChain args)).isSome = true →
       ∃ m ∈ composeMessages clean args, m.role = "user") ∧
    (∀ (clean : String → String) (args : ComposeArgs) (j : Nat)
       (hj : j < (effectiveChain args).length),
       args.sendChatHistory = true →
       normalizeOptionalNonNegativeInt args.maxUserHistory = some 0 →
       lastUserMappedIdx (effectiveChain args) = some j →
       (composeMessages clean args).filter (fun m => m.role == "user")
         = [⟨"user",
             sanitizeContentForSend clean ((effectiveChain args).get ⟨j, hj⟩).content,
             jsOrNull ((effectiveChain args).get ⟨j, hj⟩).thoughtSignature⟩]) ∧
    (∀ (clean : String → String) (args : ComposeArgs) (nd : MsgNode),
       args.sendChatHistory = true →
       normalizeOptionalNonNegativeInt args.maxUserHistory = none →
       normalizeOptionalNonNegativeInt args.maxAssistantHistory = none →
       args.maxHistory = some 0 →
       lastRawUser (effectiveChain args) = some nd →
       composeMessages clean args
         = systemPart args
            ++ [⟨"user", sanitizeContentForSend clean nd.content,
                 jsOrNull nd.thoughtSignature⟩]) ∧
    (∀ (clean : String → String) (args : ComposeArgs) (last : MsgNode),
       (effectiveChain args).getLast? = some last → last.role = "user" →
       args.sendChatHistory = false →
       ((composeMessages clean args).map (fun m => m.role)).getLast? = some "user") ∧
    (∀ (clean : String → String) (args : ComposeArgs) (last : MsgNode),
       (effectiveChain args).getLast? = some last → last.role = "user" →
       args.sendChatHistory = true →
       normalizeOptionalNonNegativeInt args.maxUserHistory = none →
       normalizeOptionalNonNegativeInt args.maxAssistantHistory = none →
       args.maxHistory ≠ some 0 →
       ((composeMessages clean args).map (fun m => m.role)).getLast? = some "user") ∧
    (∀ (clean : String → String) (args : ComposeArgs) (j : Nat)
       (hj : j < (effectiveChain args).length),
       args.sendChatHistory = true →
       ((normalizeOptionalNonNegativeInt args.maxUserHistory).isSome = true ∨
        (normalizeOptionalNonNegativeInt args.maxAssistantHistory).isSome = true) →
       lastUserMappedIdx (effectiveChain args) = some j →
       userTurnPresent clean (composeMessages clean args)
         ((effectiveChain args).get ⟨j, hj⟩)) ∧
    (∀ (clean : String → String) (args : ComposeArgs) (j : Nat)
       (hj : j < (effectiveChain args).length),
       args.sendChatHistory = true →
       normalizeOptionalNonNegativeInt args.maxUserHistory = none →
       normalizeOptionalNonNegativeInt args.maxAssistantHistory = none →
       (args.maxHistory = none ∨ ∃ mh, args.maxHistory = some mh ∧ mh < 0) →
       lastUserMappedIdx (effectiveChain args) = some j →
       userTurnPresent clean (composeMessages clean args)
         ((effectiveChain args).get ⟨j, hj⟩)) ∧
    ∀ (clean : String → String) (args : ComposeArgs) (j : Nat) (mh : Int)
      (hj : j < (effectiveChain args).length),
      args.sendChatHistory = true →
      normalizeOptionalNonNegativeInt args.maxUserHistory = none →
      normalizeOptionalNonNegativeInt args.maxAssistantHistory = none →
      args.maxHistory = some mh → 0 < mh →
      (effectiveChain args).length ≤ j + mh.toNat →
      lastUserMappedIdx (effectiveChain args) = some j →
      userTurnPresent clean (composeMessages clean args)
        ((effectiveChain args).get ⟨j, hj⟩) := by
  refine ⟨?_, ?_, ?_, ?_, ?_, ?_, ?_, ?_, ?_⟩
  · -- (a)
    intro chain uc ac j hj hl
    exact lastUser_mem_select chain uc ac j hj hl
  · -- (b)
    intro clean args hsch hcaps hlast
    rw [Option.isSome_iff_exists] at hlast
    obtain ⟨j, hl⟩ := hlast
    obtain ⟨hj, hu, hc⟩ := (lastUser_some_iff _ j).mp hl
    have hor : ((normalizeOptionalNonNegativeInt args.maxUserHistory).isSome
        || (normalizeOptionalNonNegativeInt args.maxAssistantHistory).isSome) = true := by
      rcases hcaps with h | h <;> simp [h]
    have hmem : msgOfNode clean ((effectiveChain args).get ⟨j, hj⟩)
        ∈ composeRaw clean args := by
      rw [composeRaw_eq]
      apply List.mem_append.mpr
      left
      apply List.mem_append.mpr
      right
      unfold historyPart
      simp only [hsch, if_true, hor]
      exact List.mem_map.mpr ⟨_, lastUser_mem_select _ _ _ j hj hl, rfl⟩
    have hrole : (msgOfNode clean ((effectiveChain args).get ⟨j, hj⟩)).role = "user" := by
      unfold msgOfNode
      simpa using hu
    have hmm : "user" ∈ (composeMessages clean args).map (fun m => m.role) := by
      unfold composeMessages applyUserMessageSpacing
      rw [spacingGo_map_role]
      exact List.mem_map.mpr ⟨_, hmem, hrole⟩
    obtain ⟨m, hm, hmr⟩ := List.mem_map.mp hmm
    exact ⟨m, hm, hmr⟩
  · -- (c)
    intro clean args j hj hsch hu0 hl
    have hor : ((normalizeOptionalNonNegativeInt args.maxUserHistory).isSome
        || (normalizeOptionalNonNegativeInt args.maxAssistantHistory).isSome) = true := by
      simp [hu0]
    have hhist : historyPart clean args (effectiveChain args)
        = (selectConversationNodesByRole (effectiveChain args) (some 0)
            (normalizeOptionalNonNegativeInt args.maxAssistantHistory)).map
            (msgOfNode clean) := by
      unfold historyPart
      simp [hsch, hor, hu0]
    obtain ⟨hj', hu, hc⟩ := (lastUser_some_iff (effectiveChain args) j).mp hl
    have humsg : (msgOfNode clean ((effectiveChain args).get ⟨j, hj⟩)).role = "user" := by
      unfold msgOfNode
      simpa using hu
    have hany : ((systemPart args ++ historyPart clean args (effectiveChain args)).any
        (fun m => m.role == "user")) = true := by
      rw [List.any_eq_true]
      refine ⟨msgOfNode clean ((effectiveChain args).get ⟨j, hj⟩), ?_, ?_⟩
      · apply List.mem_append.mpr
        right
        rw [hhist]
        exact List.mem_map.mpr ⟨_, lastUser_mem_select _ _ _ j hj hl, rfl⟩
      · simpa using humsg
    have hfb : fallbackPart clean args (effectiveChain args)
        (systemPart args ++ historyPart clean args (effectiveChain args)) = [] := by
      unfold fallbackPart
      by_cases hmh : (args.maxHistory == some 0 && !(effectiveChain args).isEmpty) = true
      · simp [hmh, hany]
      · have hmh' : (args.maxHistory == some 0 && !(effectiveChain args).isEmpty) = false := by
          simpa using hmh
        simp [hmh']
    have hraw : composeRaw clean args
        = systemPart args ++ historyPart clean args (effectiveChain args) := by
      rw [composeRaw_eq, hfb, List.append_nil]
    unfold composeMessages applyUserMessageSpacing
    apply spacingGo_filter_user_single
    rw [hraw, List.filter_append]
    have hsys : (systemPart args).filter (fun m => m.role == "user") = [] := by
      unfold systemPart
      split
      · rfl
      · rfl
    have hru : mapRole ((effectiveChain args).get ⟨j, hj⟩).role = "user" := by
      simpa using hu
    rw [hsys, List.nil_append, hhist, filter_msgOfNode_user,
        select_userFilter_cap_zero (effectiveChain args) _ j hj hl]
    unfold msgOfNode
    rw [List.map_cons, List.map_nil, hru]
  · -- (d)
    intro clean args nd hsch hu0 ha0 hmh hlastraw
    have hhist : historyPart clean args (effectiveChain args) = [] := by
      unfold historyPart
      simp [hsch, hu0, ha0, hmh]
    have hne : (effectiveChain args).isEmpty = false := by
      cases he : effectiveChain args with
      | nil =>
        rw [he] at hlastraw
        simp [lastRawUser] at hlastraw
      | cons x xs => rfl
    have hsysuser : ∀ m ∈ systemPart args, (m.role == "user") = false := by
      intro m hm
      have := systemPart_roles args m hm
      rw [this]
      rfl
    have hanyf : ((systemPart args).any (fun m => m.role == "user")) = false := by
      rw [Bool.eq_false_iff]
      intro hb
      rw [List.any_eq_true] at hb
      obtain ⟨m, hm, hmu⟩ := hb
      rw [hsysuser m hm] at hmu
      cases hmu
    have hcond : (args.maxHistory == some 0 && !(effectiveChain args).isEmpty) = true := by
      simp [hmh, hne]
    have hfb : fallbackPart clean args (effectiveChain args)
        (systemPart args ++ historyPart clean args (effectiveChain args))
        = [⟨"user", sanitizeContentForSend clean nd.content,
            jsOrNull nd.thoughtSignature⟩] := by
      unfold fallbackPart
      rw [hhist, List.append_nil]
      simp [hcond, hanyf, hlastraw]
    have hraw : composeRaw clean args
        = systemPart args ++ [⟨"user", sanitizeContentForSend clean nd.content,
            jsOrNull nd.thoughtSignature⟩] := by
      rw [composeRaw_eq, hhist, List.append_nil]
      rw [hhist, List.append_nil] at hfb
      rw [hfb]
    unfold composeMessages applyUserMessageSpacing
    rw [hraw]
    unfold systemPart
    split
    · simp [spacingGo, spaceMsg_false]
    · simp [spacingGo, spaceMsg_false]
  · -- (e1) history disabled, chain ends with a user message
    intro clean args last hlast hrole hsch
    have hhist : historyPart clean args (effectiveChain args)
        = [⟨mapRole last.role, sanitizeContentForSend clean last.content, none⟩] := by
      unfold historyPart
      simp [hsch, hlast]
    have hu : mapRole last.role = "user" := by
      rw [hrole]
      rfl
    have hfb : fallbackPart clean args (effectiveChain args)
        (systemPart args ++ historyPart clean args (effectiveChain args)) = [] := by
      unfold fallbackPart
      by_cases hmh : (args.maxHistory == some 0 && !(effectiveChain args).isEmpty) = true
      · have hany : ((systemPart args ++ historyPart clean args (effectiveChain args)).any
            (fun m => m.role == "user")) = true := by
          rw [List.any_eq_true]
          refine ⟨⟨mapRole last.role, sanitizeContentForSend clean last.content, none⟩,
            ?_, ?_⟩
          · apply List.mem_append.mpr
            right
            rw [hhist]
            simp
          · simp [hu]
        simp [hmh, hany]
      · have hmh' : (args.maxHistory == some 0 && !(effectiveChain args).isEmpty) = false := by
          simpa using hmh
        simp [hmh']
    unfold composeMessages applyUserMessageSpacing
    rw [composeRaw_eq, spacingGo_map_role, hfb, List.append_nil, List.map_append, hhist]
    rw [List.getLast?_append]
    simp [hu]
  · -- (e2) legacy non-zero policies, chain ends with a user message
    intro clean args last hlast hrole hsch hu0 ha0 hmh
    have hor : ((normalizeOptionalNonNegativeInt args.maxUserHistory).isSome
        || (normalizeOptionalNonNegativeInt args.maxAssistantHistory).isSome) = false := by
      simp [hu0, ha0]
    have hmh' : (args.maxHistory == some 0) = false := by
      simpa using hmh
    have hlen : 0 < (effectiveChain args).length := by
      cases he : effectiveChain args with
      | nil =>
        rw [he] at hlast
        cases hlast
      | cons x xs => simp
    have hfb : ∀ base, fallbackPart clean args (effectiveChain args) base = [] := by
      intro base
      unfold fallbackPart
      simp [hmh']
    have hhistlast : ((historyPart clean args (effectiveChain args)).map
        (fun m => m.role)).getLast? = some "user" := by
      unfold historyPart
      simp only [hsch, if_true, hor, Bool.false_eq_true, if_false, hmh']
      cases hmx : args.maxHistory with
      | none =>
        rw [List.map_map, List.getLast?_map, hlast]
        simp only [Option.map_some']
        show some (mapRole last.role) = some "user"
        rw [hrole]
        rfl
      | some m =>
        by_cases hm : 0 < m
        · simp only [hm, if_pos, if_true]
          rw [List.map_map, List.getLast?_map]
          rw [List.getLast?_drop]
          have : ¬((effectiveChain args).length ≤ (effectiveChain args).length - m.toNat) := by
            omega
          rw [if_neg this, hlast]
          simp only [Option.map_some']
          show some (mapRole last.role) = some "user"
          rw [hrole]
          rfl
        · simp only [hm, if_neg, if_false]
          rw [List.map_map, List.getLast?_map, hlast]
          simp only [Option.map_some']
          show some (mapRole last.role) = some "user"
          rw [hrole]
          rfl
    unfold composeMessages applyUserMessageSpacing
    rw [composeRaw_eq, spacingGo_map_role, hfb, List.append_nil, List.map_append]
    rw [List.getLast?_append, hhistlast]
    rfl
  · -- (g) role-based caps: content-level presence of the final user node
    intro clean args j hj hsch hcaps hl
    obtain ⟨hj', hu, hc⟩ := (lastUser_some_iff (effectiveChain args) j).mp hl
    have hru : mapRole ((effectiveChain args).get ⟨j, hj⟩).role = "user" := by
      simpa using hu
    have hor : ((normalizeOptionalNonNegativeInt args.maxUserHistory).isSome
        || (normalizeOptionalNonNegativeInt args.maxAssistantHistory).isSome) = true := by
      rcases hcaps with h | h <;> simp [h]
    have hmem : msgOfNode clean ((effectiveChain args).get ⟨j, hj⟩)
        ∈ composeRaw clean args := by
      rw [composeRaw_eq]
      apply List.mem_append.mpr
      left
      apply List.mem_append.mpr
      right
      unfold historyPart
      simp only [hsch, if_true, hor]
      exact List.mem_map.mpr ⟨_, lastUser_mem_select _ _ _ j hj hl, rfl⟩
    exact compose_userTurnPresent clean args _ hru hmem
  · -- (h) legacy no-cap policy: the whole chain is emitted
    intro clean args j hj hsch hu0 ha0 hnc hl
    obtain ⟨hj', hu, hc⟩ := (lastUser_some_iff (effectiveChain args) j).mp hl
    have hru : mapRole ((effectiveChain args).get ⟨j, hj⟩).role = "user" := by
      simpa using hu
    have hor : ((normalizeOptionalNonNegativeInt args.maxUserHistory).isSome
        || (normalizeOptionalNonNegativeInt args.maxAssistantHistory).isSome) = false := by
      simp [hu0, ha0]
    have hhist : historyPart clean args (effectiveChain args)
        = (effectiveChain args).map (msgOfNode clean) := by
      unfold historyPart
      rcases hnc with h | ⟨mh, h, hm⟩
      · simp [hsch, hor, h]
      · have hm0 : mh ≠ 0 := by omega
        have hlt : ¬(0 < mh) := by omega
        simp [hsch, hor, h, hm0, hlt]
    have hmem : msgOfNode clean ((effectiveChain args).get ⟨j, hj⟩)
        ∈ composeRaw clean args := by
      rw [composeRaw_eq]
      apply List.mem_append.mpr
      left
      apply List.mem_append.mpr
      right
      rw [hhist]
      exact List.mem_map.mpr ⟨_, List.get_mem _ _ _, rfl⟩
    exact compose_userTurnPresent clean args _ hru hmem
  · -- (i) legacy positive cap with the final user node inside the window
    intro clean args j mh hj hsch hu0 ha0 hmx hpos hwin hl
    obtain ⟨hj', hu, hc⟩ := (lastUser_some_iff (effectiveChain args) j).mp hl
    have hru : mapRole ((effectiveChain args).get ⟨j, hj⟩).role = "user" := by
      simpa using hu
    have hor : ((normalizeOptionalNonNegativeInt args.maxUserHistory).isSome
        || (normalizeOptionalNonNegativeInt args.maxAssistantHistory).isSome) = false := by
      simp [hu0, ha0]
    have hm0 : mh ≠ 0 := by omega
    have hhist : historyPart clean args (effectiveChain args)
        = ((effectiveChain args).drop ((effectiveChain args).length - mh.toNat)).map
            (msgOfNode clean) := by
      unfold historyPart
      simp [hsch, hor, hmx, hm0, hpos]
    have hmem : msgOfNode clean ((effectiveChain args).get ⟨j, hj⟩)
        ∈ composeRaw clean args := by
      rw [composeRaw_eq]
      apply List.mem_append.mpr
      left
      apply List.mem_append.mpr
      right
      rw [hhist]
      exact List.mem_map.mpr ⟨_, get_mem_drop _ _ j hj (by omega), rfl⟩
    exact compose_userTurnPresent clean args _ hru hmem

/-- Witness for C2 at concrete inputs: the role-capped selection keeps the
final user node, and under the legacy no-cap policy the final user message
of a chain ending in an assistant message is still present. -/
theorem composeMessages_final_user_witness :
    lastUserMappedIdx [⟨"u1", "user", .str "hi", none⟩] = some 0 ∧
    (⟨"u1", "user", .str "hi", none⟩ : MsgNode)
      ∈ selectConversationNodesByRole [⟨"u1", "user", .str "hi", none⟩] (some 1) none ∧
    userTurnPresent id
      (composeMessages id
        ⟨none, [], none, false, false, none,
         [⟨"u1", "user", .str "hi", none⟩, ⟨"a1", "ai", .str "yo", none⟩],
         true, none, none, none⟩)
      ⟨"u1", "user", .str "hi", none⟩ := by
  refine ⟨rfl, ?_, ?_⟩
  · exact composeMessages_final_user.1 [⟨"u1", "user", .str "hi", none⟩]
      (some 1) none 0 (by decide) rfl
  · exact composeMessages_final_user.2.2.2.2.2.2.2.1 id
      ⟨none, [], none, false, false, none,
       [⟨"u1", "user", .str "hi", none⟩, ⟨"a1", "ai", .str "yo", none⟩],
       true, none, none, none⟩ 0 (by decide) rfl rfl rfl (Or.inl rfl) rfl

/-- Witness for C4 at a concrete tree: delete `B` from `A ← B ← C`. -/
theorem deleteNode_spec_witness :
    TreeWF ⟨[⟨"A", none, "user", "a"⟩, ⟨"B", some "A", "assistant", "b"⟩,
            ⟨"C", some "B", "user", "c"⟩], some "C"⟩ ∧
    (deleteNode ⟨[⟨"A", none, "user", "a"⟩, ⟨"B", some "A", "assistant", "b"⟩,
                 ⟨"C", some "B", "user", "c"⟩], some "C"⟩ "B").2 = true := by
  refine ⟨?_, ?_⟩
  · constructor
    · decide
    · decide
  · exact ((deleteNode_spec _ ⟨by decide, by decide⟩).1
      ⟨"B", some "A", "assistant", "b"⟩ (by decide)).1

/-- A successful backward scan stops at the nearest strictly-preceding
`user-message` element. -/
theorem findPrevUserPair_some_char (els : List DomMessage) :
    ∀ (i j : Nat) (u : DomMessage), findPrevUserPair els i = some (j, u) →
      j < i ∧ els.get? j = some u ∧ u.isUser = true ∧
        ∀ k, j < k → k < i → ∀ x, els.get? k = some x → x.isUser = false := by
  intro i
  induction i with
  | zero => intro j u h; simp [findPrevUserPair] at h
  | succ n ih =>
    intro j u h
    unfold findPrevUserPair at h
    cases hx : els.get? n with
    | some x =>
      rw [hx] at h
      dsimp only at h
      by_cases hu : x.isUser
      · rw [if_pos hu] at h
        simp only [Option.some.injEq, Prod.mk.injEq] at h
        obtain ⟨rfl, rfl⟩ := h
        refine ⟨Nat.lt_succ_self _, hx, hu, ?_⟩
        intro k h1 h2 y hy
        omega
      · rw [if_neg hu] at h
        obtain ⟨h1, h2, h3, h4⟩ := ih j u h
        refine ⟨by omega, h2, h3, ?_⟩
        intro k hk1 hk2 y hy
        rcases Nat.lt_succ_iff_lt_or_eq.mp hk2 with hk3 | rfl
        · exact h4 k hk1 hk3 y hy
        · rw [hx] at hy
          cases hy
          simpa using hu
    | none =>
      rw [hx] at h
      dsimp only at h
      obtain ⟨h1, h2, h3, h4⟩ := ih j u h
      refine ⟨by omega, h2, h3, ?_⟩
      intro k hk1 hk2 y hy
      rcases Nat.lt_succ_iff_lt_or_eq.mp hk2 with hk3 | rfl
      · exact h4 k hk1 hk3 y hy
      · rw [hx] at hy; cases hy

/-- A failed backward scan means no strictly-preceding element carries the
`user-message` class. -/
theorem findPrevUserPair_none_char (els : List DomMessage) :
    ∀ i, findPrevUserPair els i = none →
      ∀ k, k < i → ∀ x, els.get? k = some x → x.isUser = false := by
  intro i
  induction i with
  | zero => intro _ k hk; omega
  | succ n ih =>
    intro h k hk x hx
    unfold findPrevUserPair at h
    cases hn : els.get? n with
    | some y =>
      rw [hn] at h
      dsimp only at h
      by_cases hy : y.isUser
      · rw [if_pos hy] at h; exact absurd h (by simp)
      · rw [if_neg hy] at h
        rcases Nat.lt_succ_iff_lt_or_eq.mp hk with hk2 | rfl
        · exact ih h k hk2 x hx
        · rw [hn] at hx; cases hx; simpa using hy
    | none =>
      rw [hn] at h
      dsimp only at h
      rcases Nat.lt_succ_iff_lt_or_eq.mp hk with hk2 | rfl
      · exact ih h k hk2 x hx
      · rw [hn] at hx; cases hx

/-- A successful forward scan stops at the nearest following `ai-message`
element at or after the start index. -/
theorem nextAiGo_some_char (els : List DomMessage) :
    ∀ (fuel k m : Nat) (a : DomMessage), nextAiGo els fuel k = some (m, a) →
      k ≤ m ∧ els.get? m = some a ∧ a.isAi = true ∧
        ∀ r, k ≤ r → r < m → ∀ y, els.get? r = some y → y.isAi = false := by
  intro fuel
  induction fuel with
  | zero => intro k m a h; simp [nextAiGo] at h
  | succ fuel ih =>
    intro k m a h
    unfold nextAiGo at h
    cases hx : els.get? k with
    | none => rw [hx] at h; exact absurd h (by simp)
    | some x =>
      rw [hx] at h
      dsimp only at h
      by_cases ha : x.isAi
      · rw [if_pos ha] at h
        simp only [Option.some.injEq, Prod.mk.injEq] at h
        obtain ⟨rfl, rfl⟩ := h
        refine ⟨Nat.le_refl _, hx, ha, ?_⟩
        intro r h1 h2 y hy
        omega
      · rw [if_neg ha] at h
        obtain ⟨h1, h2, h3, h4⟩ := ih (k + 1) m a h
        refine ⟨by omega, h2, h3, ?_⟩
        intro r hr1 hr2 y hy
        rcases Nat.eq_or_lt_of_le hr1 with rfl | hr3
        · rw [hx] at hy; cases hy; simpa using ha
        · exact h4 r hr3 hr2 y hy

/-- With enough fuel, a failed forward scan means no element at or after
the start index carries the `ai-message` class. -/
theorem nextAiGo_none_char (els : List DomMessage) :
    ∀ (fuel k : Nat), els.length ≤ k + fuel → nextAiGo els fuel k = none →
      ∀ r, k ≤ r → ∀ y, els.get? r = some y → y.isAi = false := by
  intro fuel
  induction fuel with
  | zero =>
    intro k hlen _ r hr y hy
    have hr2 : r < els.length := (List.get?_eq_some.mp hy).1
    omega
  | succ fuel ih =>
    intro k hlen h r hr y hy
    unfold nextAiGo at h
    cases hx : els.get? k with
    | none =>
      have hk : els.length ≤ k := List.get?_eq_none.mp hx
      have hr2 : r < els.length := (List.get?_eq_some.mp hy).1
      omega
    | some x =>
      rw [hx] at h
      dsimp only at h
      by_cases ha : x.isAi
      · rw [if_pos ha] at h; exact absurd h (by simp)
      · rw [if_neg ha] at h
        rcases Nat.eq_or_lt_of_le hr with rfl | hr2
        · rw [hx] at hy; cases hy; simpa using ha
        · exact ih (k + 1) (by omega) h r hr2 y hy

/-- **C5, counterexample.** The selected element at index 1 is an assistant
message that is not a loading/error placeholder, and the backward scan does
find an anchor user element (index 0), yet the resolver returns `none`:
the anchor's `data-message-id` is empty, a failure case the claim does not
list (`if (!userMessageId) return null`). -/
theorem resolveRegenerateTarget_counterexample :
    resolveRegenerateTarget
        [⟨false, true, false, "", "orig"⟩, ⟨true, false, false, "a2", "t"⟩] 1 = none ∧
      findPrevUserPair
          [⟨false, true, false, "", "orig"⟩, ⟨true, false, false, "a2", "t"⟩] 1 =
        some (0, ⟨false, true, false, "", "orig"⟩) ∧
      (⟨true, false, false, "a2", "t"⟩ : DomMessage).isLoading = false ∧
      (⟨true, false, false, "a2", "t"⟩ : DomMessage).isAi = true := by
  exact ⟨rfl, rfl, rfl, rfl⟩

/-- **C5 (amended).** Full characterization of `resolveRegenerateTarget`:
(1) a loading/error placeholder resolves to `none`; (2) an element that is
neither an assistant nor a user message resolves to `none`; (3) for an
assistant message, the anchor is the nearest preceding user element — if
none exists the result is `none`, if it exists but carries no message id
the result is also `none`, and otherwise the result anchors at it with the
assistant element itself as replacement target; (4) for a user message the
element itself is the anchor (resolving to `none` when its message id is
empty), and the target is the nearest following assistant element, or null
when no following element is an assistant message. -/
theorem resolveRegenerateTarget_spec :
    (∀ (els : List DomMessage) (i : Nat) (e : DomMessage), els.get? i = some e →
        e.isLoading = true → resolveRegenerateTarget els i = none) ∧
      (∀ (els : List DomMessage) (i : Nat) (e : DomMessage), els.get? i = some e →
          e.isAi = false → e.isUser = false → resolveRegenerateTarget els i = none) ∧
      (∀ (els : List DomMessage) (i : Nat) (e : DomMessage), els.get? i = some e →
          e.isLoading = false → e.isAi = true →
          (findPrevUserPair els i = none →
              resolveRegenerateTarget els i = none ∧
                ∀ k, k < i → ∀ x, els.get? k = some x → x.isUser = false) ∧
            ∀ (j : Nat) (u : DomMessage), findPrevUserPair els i = some (j, u) →
              (j < i ∧ els.get? j = some u ∧ u.isUser = true ∧
                  ∀ k, j < k → k < i → ∀ x, els.get? k = some x → x.isUser = false) ∧
                (u.messageId = "" → resolveRegenerateTarget els i = none) ∧
                (u.messageId ≠ "" →
                  resolveRegenerateTarget els i =
                    some ⟨j, u.messageId, u.originalText, some i,
                      jsOrNull (some e.messageId)⟩)) ∧
      ∀ (els : List DomMessage) (i : Nat) (e : DomMessage), els.get? i = some e →
        e.isLoading = false → e.isAi = false → e.isUser = true →
        (e.messageId = "" → resolveRegenerateTarget els i = none) ∧
          (e.messageId ≠ "" →
            (findNextAiPair els i = none →
                resolveRegenerateTarget els i =
                    some ⟨i, e.messageId, e.originalText, none, none⟩ ∧
                  ∀ r, i < r → ∀ y, els.get? r = some y → y.isAi = false) ∧
              ∀ (k : Nat) (a : DomMessage), findNextAiPair els i = some (k, a) →
                (i < k ∧ els.get? k = some a ∧ a.isAi = true ∧
                    ∀ r, i < r → r < k → ∀ y, els.get? r = some y → y.isAi = false) ∧
                  resolveRegenerateTarget els i =
                    some ⟨i, e.messageId, e.originalText, some k,
                      jsOrNull (some a.messageId)⟩) := by
  refine ⟨?_, ?_, ?_, ?_⟩
  · intro els i e he hl
    unfold resolveRegenerateTarget
    rw [he]
    dsimp only
    simp [hl]
  · intro els i e he ha hu
    unfold resolveRegenerateTarget
    rw [he]
    dsimp only
    cases hl : e.isLoading <;> simp [hl, ha, hu]
  · intro els i e he hl hai
    constructor
    · intro hprev
      refine ⟨?_, findPrevUserPair_none_char els i hprev⟩
      unfold resolveRegenerateTarget
      rw [he]
      dsimp only
      simp [hl, hai, hprev]
    · intro j u hprev
      refine ⟨findPrevUserPair_some_char els i j u hprev, ?_, ?_⟩
      · intro hmid
        unfold resolveRegenerateTarget
        rw [he]
        dsimp only
        simp [hl, hai, hprev, hmid]
      · intro hmid
        unfold resolveRegenerateTarget
        rw [he]
        dsimp only
        simp [hl, hai, hprev, hmid]
  · intro els i e he hl hai hu
    constructor
    · intro hmid
      unfold resolveRegenerateTarget
      rw [he]
      dsimp only
      simp [hl, hai, hu, hmid]
    · intro hmid
      constructor
      · intro hnext
        constructor
        · unfold resolveRegenerateTarget
          rw [he]
          dsimp only
          simp [hl, hai, hu, hmid, hnext]
        · intro r hr y hy
          exact nextAiGo_none_char els els.length (i + 1) (by omega) hnext r
            (by omega) y hy
      · intro k a hnext
        obtain ⟨h1, h2, h3, h4⟩ := nextAiGo_some_char els els.length (i + 1) k a hnext
        refine ⟨⟨by omega, h2, h3, ?_⟩, ?_⟩
        · intro r hr1 hr2 y hy
          exact h4 r (by omega) hr2 y hy
        · unfold resolveRegenerateTarget
          rw [he]
          dsimp only
          simp [hl, hai, hu, hmid, hnext]

/-- Witness for C5 at a concrete input: an assistant message at index 1
with a valid anchor user element at index 0. -/
theorem resolveRegenerateTarget_spec_witness :
    resolveRegenerateTarget
        [⟨false, true, false, "u1", "t1"⟩, ⟨true, false, false, "a1", ""⟩] 1 =
      some ⟨0, "u1", "t1", some 1, some "a1"⟩ := by
  have h := ((resolveRegenerateTarget_spec.2.2.1
      [⟨false, true, false, "u1", "t1"⟩, ⟨true, false, false, "a1", ""⟩] 1
      ⟨true, false, false, "a1", ""⟩ rfl rfl rfl).2 0
      ⟨false, true, false, "u1", "t1"⟩ rfl).2.2 (by decide)
  rw [h]
  rfl


theorem lookup_upsert_eq {α β : Type} [BEq α] [LawfulBEq α] (k : α) (v : β)
    (l : List (α × β)) : List.lookup k (upsert k v l) = some v := by
  induction l with
  | nil => simp [upsert, List.lookup]
  | cons p rest ih =>
    obtain ⟨q, w⟩ := p
    by_cases h : q = k
    · simp [upsert, h, List.lookup]
    · have h1 : (q == k) = false := by simp [h]
      have h2 : (k == q) = false := by
        rw [beq_eq_false_iff_ne]
        exact fun hh => h hh.symm
      simp [upsert, h1, h2, List.lookup, ih]

theorem lookup_upsert_ne {α β : Type} [BEq α] [LawfulBEq α] (k q : α) (v : β)
    (l : List (α × β)) (h : ¬ q = k) :
    List.lookup q (upsert k v l) = List.lookup q l := by
  have hqk : (q == k) = false := by simp [h]
  induction l with
  | nil => simp [upsert, List.lookup, hqk]
  | cons p rest ih =>
    obtain ⟨a, w⟩ := p
    by_cases ha : a = k
    · subst ha
      simp [upsert, List.lookup, hqk]
    · have ha1 : (a == k) = false := by simp [ha]
      simp only [upsert, ha1, Bool.false_eq_true, if_false]
      cases hqa : q == a <;> simp [List.lookup, hqa, ih]

theorem mem_upsert_fst {α β : Type} [BEq α] [LawfulBEq α] (k a : α) (v : β)
    (l : List (α × β)) :
    a ∈ (upsert k v l).map Prod.fst ↔ a = k ∨ a ∈ l.map Prod.fst := by
  induction l with
  | nil => simp [upsert]
  | cons p rest ih =>
    obtain ⟨q, w⟩ := p
    by_cases h : q = k
    · subst h
      simp [upsert]
    · have h1 : (q == k) = false := by simp [h]
      simp only [upsert, h1, Bool.false_eq_true, if_false, List.map_cons,
        List.mem_cons, ih]
      tauto

theorem upsert_fst_nodup {α β : Type} [BEq α] [LawfulBEq α] (k : α) (v : β)
    (l : List (α × β)) (h : (l.map Prod.fst).Nodup) :
    ((upsert k v l).map Prod.fst).Nodup := by
  induction l with
  | nil => simp [upsert]
  | cons p rest ih =>
    obtain ⟨q, w⟩ := p
    simp only [List.map_cons, List.nodup_cons] at h
    by_cases hq : q = k
    · subst hq
      have hres : upsert q v ((q, w) :: rest) = (q, v) :: rest := by simp [upsert]
      rw [hres]
      simp only [List.map_cons, List.nodup_cons]
      exact h
    · have h1 : (q == k) = false := by simp [hq]
      simp only [upsert, h1, Bool.false_eq_true, if_false, List.map_cons,
        List.nodup_cons]
      refine ⟨?_, ih h.2⟩
      rw [mem_upsert_fst]
      push_neg
      exact ⟨hq, h.1⟩

theorem mem_upsert {α β : Type} [BEq α] [LawfulBEq α] (k : α) (v : β)
    (l : List (α × β)) (hnd : (l.map Prod.fst).Nodup) :
    ∀ p ∈ upsert k v l, p = (k, v) ∨ (p ∈ l ∧ ¬ p.1 = k) := by
  induction l with
  | nil =>
    intro p hp
    simp only [upsert, List.mem_singleton] at hp
    exact Or.inl hp
  | cons q rest ih =>
    obtain ⟨a, w⟩ := q
    simp only [List.map_cons, List.nodup_cons] at hnd
    intro p hp
    by_cases ha : a = k
    · subst ha
      have hres : upsert a v ((a, w) :: rest) = (a, v) :: rest := by simp [upsert]
      rw [hres] at hp
      rcases List.mem_cons.mp hp with rfl | hp2
      · exact Or.inl rfl
      · refine Or.inr ⟨List.mem_cons_of_mem _ hp2, ?_⟩
        intro hpk
        apply hnd.1
        rw [← hpk]
        exact List.mem_map_of_mem Prod.fst hp2
    · have h1 : (a == k) = false := by simp [ha]
      simp only [upsert, h1, Bool.false_eq_true, if_false] at hp
      rcases List.mem_cons.mp hp with rfl | hp2
      · exact Or.inr ⟨List.mem_cons_self _ _, ha⟩
      · rcases ih hnd.2 p hp2 with h2 | ⟨h2, h3⟩
        · exact Or.inl h2
        · exact Or.inr ⟨List.mem_cons_of_mem _ h2, h3⟩

theorem lookup_mem {α β : Type} [BEq α] [LawfulBEq α] (k : α) (v : β)
    (l : List (α × β)) (h : List.lookup k l = some v) : (k, v) ∈ l := by
  induction l with
  | nil => simp [List.lookup] at h
  | cons p rest ih =>
    obtain ⟨a, w⟩ := p
    by_cases ha : k = a
    · have h1 : (k == a) = true := by simp [ha]
      simp only [List.lookup, h1] at h
      cases h
      simp [ha]
    · have h1 : (k == a) = false := by simp [ha]
      simp only [List.lookup, h1] at h
      exact List.mem_cons_of_mem _ (ih h)

theorem lookup_of_mem_nodup {α β : Type} [BEq α] [LawfulBEq α] (k : α) (v : β)
    (l : List (α × β)) (hnd : (l.map Prod.fst).Nodup) (h : (k, v) ∈ l) :
    List.lookup k l = some v := by
  induction l with
  | nil => simp at h
  | cons p rest ih =>
    obtain ⟨a, w⟩ := p
    simp only [List.map_cons, List.nodup_cons] at hnd
    rcases List.mem_cons.mp h with h2 | h2
    · cases h2
      simp [List.lookup]
    · have ha : ¬ k = a := by
        intro hka
        apply hnd.1
        rw [← hka]
        exact List.mem_map_of_mem Prod.fst h2
      have h1 : (k == a) = false := by simp [ha]
      simp only [List.lookup, h1]
      exact ih hnd.2 h2

theorem lookup_isSome_iff_mem_fst {α β : Type} [BEq α] [LawfulBEq α] (k : α)
    (l : List (α × β)) : (List.lookup k l).isSome = true ↔ k ∈ l.map Prod.fst := by
  induction l with
  | nil => simp [List.lookup]
  | cons p rest ih =>
    obtain ⟨a, w⟩ := p
    by_cases ha : k = a
    · have h1 : (k == a) = true := by simp [ha]
      simp [List.lookup, h1, ha]
    · have h1 : (k == a) = false := by simp [ha]
      simp [List.lookup, h1, ih, ha]

theorem lookup_map_value {α β γ : Type} [BEq α] [LawfulBEq α] (f : α → β → γ) (c : α) :
    ∀ l : List (α × β),
      List.lookup c (l.map (fun p => (p.1, f p.1 p.2))) = (List.lookup c l).map (f c) := by
  intro l
  induction l with
  | nil => simp [List.lookup]
  | cons p rest ih =>
    obtain ⟨a, w⟩ := p
    by_cases ha : c = a
    · subst ha
      simp [List.lookup, ih]
    · have h1 : (c == a) = false := by simp [ha]
      simp [List.lookup, h1, ih]

theorem PerTabInv_extend (fs : Option (List String)) (pre : List PresenceInfo)
    (c : String) (perTab : List (Int × SnapshotEntry)) (info : PresenceInfo)
    (h : PerTabInv fs pre c perTab) (hno : ¬ infoMatches fs c info) :
    PerTabInv fs (pre ++ [info]) c perTab := by
  obtain ⟨h1, h2, h3⟩ := h
  refine ⟨h1, ?_, ?_⟩
  · intro p hp
    obtain ⟨⟨i2, hi2, hm⟩, hdom⟩ := h2 p hp
    refine ⟨⟨i2, List.mem_append_left _ hi2, hm⟩, ?_⟩
    intro i3 hi3 hm3 ht3
    rcases List.mem_append.mp hi3 with h4 | h4
    · exact hdom i3 h4 hm3 ht3
    · rw [List.mem_singleton] at h4
      subst h4
      exact absurd hm3 hno
  · intro i3 hi3 hm3
    rcases List.mem_append.mp hi3 with h4 | h4
    · exact h3 i3 h4 hm3
    · rw [List.mem_singleton] at h4
      subst h4
      exact absurd hm3 hno

theorem AccInv_extend (fs : Option (List String)) (pre : List PresenceInfo)
    (acc : List (String × List (Int × SnapshotEntry))) (info : PresenceInfo)
    (h : AccInv fs pre acc) (hno : ∀ c, ¬ infoMatches fs c info) :
    AccInv fs (pre ++ [info]) acc := by
  obtain ⟨hnd, hiff, hper⟩ := h
  refine ⟨hnd, ?_, ?_⟩
  · intro c
    rw [hiff c]
    constructor
    · rintro ⟨i2, hi2, hm⟩
      exact ⟨i2, List.mem_append_left _ hi2, hm⟩
    · rintro ⟨i2, hi2, hm⟩
      rcases List.mem_append.mp hi2 with h4 | h4
      · exact ⟨i2, h4, hm⟩
      · rw [List.mem_singleton] at h4
        subst h4
        exact absurd hm (hno c)
  · intro c perTab hlk
    exact PerTabInv_extend fs pre c perTab info (hper c perTab hlk) (hno c)

theorem PerTabInv_upsert (fs : Option (List String)) (pre : List PresenceInfo)
    (convId : String) (perTab : List (Int × SnapshotEntry)) (info : PresenceInfo)
    (hni : normalizeConversationId info.conversationId = some convId)
    (hpass : passesFilter fs convId = true)
    (h : PerTabInv fs pre convId perTab)
    (hdomall : ∀ i2 ∈ pre, infoMatches fs convId i2 →
      i2.tabId.getD 0 = info.tabId.getD 0 →
      i2.lastUpdated ≤ (entryOfInfo info).lastUpdated) :
    PerTabInv fs (pre ++ [info]) convId
      (upsert (info.tabId.getD 0) (entryOfInfo info) perTab) := by
  obtain ⟨h1, h2, h3⟩ := h
  refine ⟨upsert_fst_nodup _ _ _ h1, ?_, ?_⟩
  · intro p hp
    rcases mem_upsert _ _ _ h1 p hp with rfl | ⟨hp2, hp3⟩
    · refine ⟨⟨info, List.mem_append_right _ (List.mem_singleton_self _),
        ⟨hni, hpass⟩, rfl, rfl⟩, ?_⟩
      intro i3 hi3 hm3 ht3
      rcases List.mem_append.mp hi3 with h4 | h4
      · exact hdomall i3 h4 hm3 ht3
      · rw [List.mem_singleton] at h4
        subst h4
        exact le_refl _
    · obtain ⟨⟨i2, hi2, hm⟩, hdom⟩ := h2 p hp2
      refine ⟨⟨i2, List.mem_append_left _ hi2, hm⟩, ?_⟩
      intro i3 hi3 hm3 ht3
      rcases List.mem_append.mp hi3 with h4 | h4
      · exact hdom i3 h4 hm3 ht3
      · rw [List.mem_singleton] at h4
        subst h4
        exact absurd ht3.symm hp3
  · intro i3 hi3 hm3
    rcases List.mem_append.mp hi3 with h4 | h4
    · rw [mem_upsert_fst]
      exact Or.inr (h3 i3 h4 hm3)
    · rw [List.mem_singleton] at h4
      subst h4
      rw [mem_upsert_fst]
      exact Or.inl rfl

theorem snapshotStep_inv (fs : Option (List String)) (pre : List PresenceInfo)
    (acc : List (String × List (Int × SnapshotEntry))) (info : PresenceInfo)
    (h : AccInv fs pre acc) : AccInv fs (pre ++ [info]) (snapshotStep fs acc info) := by
  cases hni : normalizeConversationId info.conversationId with
  | none =>
    have hstep : snapshotStep fs acc info = acc := by
      unfold snapshotStep
      rw [hni]
    rw [hstep]
    refine AccInv_extend fs pre acc info h ?_
    intro c hm
    rw [infoMatches, hni] at hm
    exact absurd hm.1 (by simp)
  | some convId =>
    have hconv : ∀ c, infoMatches fs c info → c = convId := by
      intro c hm
      have h2 := hm.1
      rw [hni] at h2
      injection h2 with h3
      exact h3.symm
    by_cases hpass : passesFilter fs convId = true
    · -- processed
      have hstep : snapshotStep fs acc info =
          upsert convId
            (match List.lookup (info.tabId.getD 0) ((List.lookup convId acc).getD []) with
             | some existing =>
                 if existing.lastUpdated ≤ (entryOfInfo info).lastUpdated then
                   upsert (info.tabId.getD 0) (entryOfInfo info)
                     ((List.lookup convId acc).getD [])
                 else (List.lookup convId acc).getD []
             | none =>
                 upsert (info.tabId.getD 0) (entryOfInfo info)
                   ((List.lookup convId acc).getD [])) acc := by
        unfold snapshotStep
        rw [hni]
        cases fs with
        | none => rfl
        | some s =>
          have hc : s.contains convId = true := hpass
          dsimp only
          rw [hc]
          rfl
      rw [hstep]
      obtain ⟨hnd, hiff, hper⟩ := h
      -- facts about the old per-tab map of convId
      have hPT : PerTabInv fs pre convId ((List.lookup convId acc).getD []) := by
        cases hlk : List.lookup convId acc with
        | some pt =>
          exact hper convId pt hlk
        | none =>
          have hnomatch : ¬ ∃ i2 ∈ pre, infoMatches fs convId i2 := by
            rw [← hiff convId, hlk]
            simp
          refine ⟨List.nodup_nil, ?_, ?_⟩
          · intro p hp
            exact absurd hp (List.not_mem_nil p)
          · intro i2 hi2 hm2
            exact absurd ⟨i2, hi2, hm2⟩ hnomatch
      obtain ⟨P1, P2, P3⟩ := hPT
      -- the new per-tab map satisfies the invariant over pre ++ [info]
      have hPT2 : PerTabInv fs (pre ++ [info]) convId
          (match List.lookup (info.tabId.getD 0) ((List.lookup convId acc).getD []) with
           | some existing =>
               if existing.lastUpdated ≤ (entryOfInfo info).lastUpdated then
                 upsert (info.tabId.getD 0) (entryOfInfo info)
                   ((List.lookup convId acc).getD [])
               else (List.lookup convId acc).getD []
           | none =>
               upsert (info.tabId.getD 0) (entryOfInfo info)
                 ((List.lookup convId acc).getD [])) := by
        cases hex : List.lookup (info.tabId.getD 0) ((List.lookup convId acc).getD []) with
        | some existing =>
          dsimp only
          have hexmem : (info.tabId.getD 0, existing) ∈ (List.lookup convId acc).getD [] :=
            lookup_mem _ _ _ hex
          have hexdom := (P2 _ hexmem).2
          by_cases hle : existing.lastUpdated ≤ (entryOfInfo info).lastUpdated
          · rw [if_pos hle]
            refine PerTabInv_upsert fs pre convId _ info hni hpass ⟨P1, P2, P3⟩ ?_
            intro i2 hi2 hm2 ht2
            exact le_trans (hexdom i2 hi2 hm2 ht2) hle
          · rw [if_neg hle]
            -- rejected: the stored entry stays and still dominates
            refine ⟨P1, ?_, ?_⟩
            · intro p hp
              obtain ⟨⟨i2, hi2, hm⟩, hdom⟩ := P2 p hp
              refine ⟨⟨i2, List.mem_append_left _ hi2, hm⟩, ?_⟩
              intro i3 hi3 hm3 ht3
              rcases List.mem_append.mp hi3 with h4 | h4
              · exact hdom i3 h4 hm3 ht3
              · rw [List.mem_singleton] at h4
                subst h4
                -- p is the stored pair for the new info's tab
                have hlk2 : List.lookup p.1 ((List.lookup convId acc).getD []) = some p.2 :=
                  lookup_of_mem_nodup _ _ _ P1 hp
                rw [← ht3] at hlk2
                rw [hex] at hlk2
                injection hlk2 with h5
                rw [← h5]
                exact le_of_lt (lt_of_not_le hle)
            · intro i3 hi3 hm3
              rcases List.mem_append.mp hi3 with h4 | h4
              · exact P3 i3 h4 hm3
              · rw [List.mem_singleton] at h4
                subst h4
                exact List.mem_map_of_mem Prod.fst hexmem
        | none =>
          dsimp only
          refine PerTabInv_upsert fs pre convId _ info hni hpass ⟨P1, P2, P3⟩ ?_
          intro i2 hi2 hm2 ht2
          have h4 := P3 i2 hi2 hm2
          rw [ht2, ← lookup_isSome_iff_mem_fst, hex] at h4
          simp at h4
      refine ⟨upsert_fst_nodup _ _ _ hnd, ?_, ?_⟩
      · intro c
        by_cases hc : c = convId
        · subst hc
          rw [lookup_upsert_eq]
          simp only [Option.isSome_some, true_iff]
          exact ⟨info, List.mem_append_right _ (List.mem_singleton_self _), hni, hpass⟩
        · rw [lookup_upsert_ne _ _ _ _ hc, hiff c]
          constructor
          · rintro ⟨i2, hi2, hm⟩
            exact ⟨i2, List.mem_append_left _ hi2, hm⟩
          · rintro ⟨i2, hi2, hm⟩
            rcases List.mem_append.mp hi2 with h4 | h4
            · exact ⟨i2, h4, hm⟩
            · rw [List.mem_singleton] at h4
              subst h4
              exact absurd (hconv c hm) hc
      · intro c perTab2 hlk2
        by_cases hc : c = convId
        · subst hc
          rw [lookup_upsert_eq] at hlk2
          injection hlk2 with h5
          rw [← h5]
          exact hPT2
        · rw [lookup_upsert_ne _ _ _ _ hc] at hlk2
          refine PerTabInv_extend fs pre c perTab2 info (hper c perTab2 hlk2) ?_
          intro hm
          exact hc (hconv c hm)
    · -- filtered out
      have hpassf : passesFilter fs convId = false := by
        revert hpass
        cases passesFilter fs convId <;> simp
      have hstep : snapshotStep fs acc info = acc := by
        unfold snapshotStep
        rw [hni]
        cases fs with
        | none => simp [passesFilter] at hpassf
        | some s =>
          have hc : s.contains convId = false := hpassf
          dsimp only
          rw [hc]
          rfl
      rw [hstep]
      refine AccInv_extend fs pre acc info h ?_
      intro c hm
      apply hpass
      rw [← hconv c hm]
      exact hm.2

theorem AccInv_nil (fs : Option (List String)) : AccInv fs [] [] := by
  refine ⟨List.nodup_nil, ?_, ?_⟩
  · intro c
    simp [List.lookup]
  · intro c perTab h
    simp [List.lookup] at h

theorem AccInv_foldl (fs : Option (List String)) :
    ∀ (infos pre : List PresenceInfo) (acc : List (String × List (Int × SnapshotEntry))),
      AccInv fs pre acc →
      AccInv fs (pre ++ infos) (infos.foldl (snapshotStep fs) acc) := by
  intro infos
  induction infos with
  | nil =>
    intro pre acc h
    simpa using h
  | cons info rest ih =>
    intro pre acc h
    have h2 := ih (pre ++ [info]) (snapshotStep fs acc info) (snapshotStep_inv fs pre acc info h)
    rw [List.append_assoc] at h2
    simpa using h2

theorem snapshot_char (infos : List PresenceInfo) (ids? : Option (List String)) :
    AccInv (buildFilterSet ids?) infos
      (infos.foldl (snapshotStep (buildFilterSet ids?)) []) := by
  have h := AccInv_foldl (buildFilterSet ids?) infos [] [] (AccInv_nil _)
  simpa using h

theorem lookup_snapshot (infos : List PresenceInfo) (ids? : Option (List String)) (c : String) :
    List.lookup c (buildOpenConversationSnapshot infos ids?) =
      (List.lookup c (infos.foldl (snapshotStep (buildFilterSet ids?)) [])).map
        (fun perTab => (perTab.map (fun q => q.2)).mergeSort
          (fun a b => decide (b.lastUpdated ≤ a.lastUpdated))) := by
  unfold buildOpenConversationSnapshot
  dsimp only
  exact lookup_map_value
    (fun (_ : String) (perTab : List (Int × SnapshotEntry)) =>
      (perTab.map (fun q => q.2)).mergeSort
        (fun a b => decide (b.lastUpdated ≤ a.lastUpdated))) c
    (infos.foldl (snapshotStep (buildFilterSet ids?)) [])

/-- **C7 (amended).** `buildOpenConversationSnapshot` returns a map whose
keys are exactly the conversation ids reported by live presence
connections that pass the effective filter — where a missing or empty
filter list, and also a filter list whose entries all normalize away
(blank or non-string ids), count as unfiltered — and each conversation's
entry list is deduplicated by tabId: tab ids are pairwise distinct, every
entry comes from a matching live connection for its tab and is at least as
recently updated as every matching connection for that tab, and every
matching connection's tab is represented. -/
theorem buildOpenConversationSnapshot_spec :
    ∀ (infos : List PresenceInfo) (ids? : Option (List String)),
      (∀ c, (List.lookup c (buildOpenConversationSnapshot infos ids?)).isSome = true ↔
          ∃ info ∈ infos, infoMatches (buildFilterSet ids?) c info) ∧
      ∀ c out, List.lookup c (buildOpenConversationSnapshot infos ids?) = some out →
        (out.map (fun e => e.tabId)).Nodup ∧
        (∀ e ∈ out,
          (∃ info ∈ infos, infoMatches (buildFilterSet ids?) c info ∧
            entryOfInfo info = e) ∧
          ∀ info ∈ infos, infoMatches (buildFilterSet ids?) c info →
            info.tabId.getD 0 = e.tabId → info.lastUpdated ≤ e.lastUpdated) ∧
        ∀ info ∈ infos, infoMatches (buildFilterSet ids?) c info →
          ∃ e ∈ out, e.tabId = info.tabId.getD 0 := by
  intro infos ids?
  obtain ⟨hnd, hiff, hper⟩ := snapshot_char infos ids?
  constructor
  · intro c
    rw [lookup_snapshot, Option.isSome_map']
    exact hiff c
  · intro c out hlk
    rw [lookup_snapshot] at hlk
    cases hfold : List.lookup c (infos.foldl (snapshotStep (buildFilterSet ids?)) []) with
    | none =>
      rw [hfold] at hlk
      simp at hlk
    | some perTab =>
      rw [hfold, Option.map_some'] at hlk
      injection hlk with hout
      obtain ⟨P1, P2, P3⟩ := hper c perTab hfold
      have htabs : ∀ p ∈ perTab, p.2.tabId = p.1 := by
        intro p hp
        obtain ⟨⟨i2, hi2, hm, ht, hev⟩, hdum⟩ := P2 p hp
        rw [← hev, ← ht]
        rfl
      have hperm : List.Perm out (perTab.map (fun q => q.2)) := by
        rw [← hout]
        exact List.mergeSort_perm _ _
      refine ⟨?_, ?_, ?_⟩
      · have hmapeq : (perTab.map (fun q => q.2)).map (fun e => e.tabId) =
            perTab.map Prod.fst := by
          rw [List.map_map]
          exact List.map_congr_left (fun p hp => htabs p hp)
        have hpm : List.Perm (out.map (fun e => e.tabId)) (perTab.map Prod.fst) := by
          rw [← hmapeq]
          exact hperm.map _
        exact hpm.symm.nodup P1
      · intro e he
        have he2 : e ∈ perTab.map (fun q => q.2) := hperm.mem_iff.mp he
        obtain ⟨p, hp, hpe⟩ := List.mem_map.mp he2
        obtain ⟨⟨i2, hi2, hm, ht, hev⟩, hdom⟩ := P2 p hp
        refine ⟨⟨i2, hi2, hm, by rw [hev, hpe]⟩, ?_⟩
        intro i3 hi3 hm3 ht3
        have h5 : i3.tabId.getD 0 = p.1 := by
          rw [ht3, ← hpe]
          exact htabs p hp
        have h6 := hdom i3 hi3 hm3 h5
        rw [← hpe]
        exact h6
      · intro i3 hi3 hm3
        have h4 := P3 i3 hi3 hm3
        obtain ⟨p, hp, hp1⟩ := List.mem_map.mp h4
        refine ⟨p.2, hperm.symm.mem_iff.mp (List.mem_map_of_mem _ hp), ?_⟩
        rw [htabs p hp, hp1]

/-- **C7, counterexample.** With the filter list `[""]` every filter entry
normalizes away, so the filter degenerates to no filter
(`set.size ? set : null`): conversation `"c"` appears in the snapshot even
though `"c"` matches nothing in the requested filter list. -/
theorem buildOpenConversationSnapshot_counterexample :
    (List.lookup "c"
        (buildOpenConversationSnapshot [⟨some 1, some 2, some "c", "t", "u", false, 5⟩]
          (some [""]))).isSome = true ∧
      "c" ∉ ([""] : List String) := by
  constructor
  · rfl
  · decide

/-- Witness for C7 at a concrete input: a single live connection on
conversation `"c"`, unfiltered. -/
theorem buildOpenConversationSnapshot_spec_witness :
    (List.lookup "c"
        (buildOpenConversationSnapshot
          [⟨some 7, some 1, some "c", "t", "u", false, 5⟩] none)).isSome = true := by
  exact ((buildOpenConversationSnapshot_spec
      [⟨some 7, some 1, some "c", "t", "u", false, 5⟩] none).1 "c").mpr
    ⟨⟨some 7, some 1, some "c", "t", "u", false, 5⟩, by simp, by decide, rfl⟩


theorem focus_snap_eval :
    buildOpenConversationSnapshot [⟨some 7, some 1, some "c", "t", "u", false, 5⟩]
      (some ["c"]) = [("c", [⟨7, 1, "t", "u", false, 5⟩])] := by
  have hfs : buildFilterSet (some ["c"]) = some ["c"] := by decide
  have hstep : snapshotStep (some ["c"]) [] ⟨some 7, some 1, some "c", "t", "u", false, 5⟩ =
      [("c", [(7, ⟨7, 1, "t", "u", false, 5⟩)])] := by decide
  unfold buildOpenConversationSnapshot
  dsimp only
  rw [hfs, List.foldl_cons, List.foldl_nil, hstep]
  simp [List.mergeSort_singleton]

theorem pickFocusTarget_eq (entries : List SnapshotEntry) (ex : Option Int) :
    pickFocusTarget entries ex =
      match entries.find? (notExcluded ex) with
      | some t => some t
      | none => entries.head? := by
  cases ex <;> rfl

theorem pickFocusTarget_ne_nil (entries : List SnapshotEntry) (ex : Option Int)
    (h : entries ≠ []) : (pickFocusTarget entries ex).isSome = true := by
  rw [pickFocusTarget_eq]
  cases entries with
  | nil => exact absurd rfl h
  | cons a rest =>
    cases hf : (a :: rest).find? (notExcluded ex) with
    | some t => rfl
    | none => rfl

theorem find_first_sorted {α : Type} (p : α → Bool) (R : α → α → Prop) :
    ∀ (l : List α), l.Pairwise R → ∀ x, l.find? p = some x →
      p x = true ∧ x ∈ l ∧ ∀ y ∈ l, p y = true → R x y ∨ x = y := by
  intro l
  induction l with
  | nil =>
    intro _ x hf
    simp at hf
  | cons a rest ih =>
    intro hp x hf
    rw [List.pairwise_cons] at hp
    cases hpa : p a with
    | true =>
      rw [List.find?_cons_of_pos _ hpa] at hf
      injection hf with hf
      subst hf
      refine ⟨hpa, List.mem_cons_self _ _, ?_⟩
      intro y hy hpy
      rcases List.mem_cons.mp hy with rfl | hy2
      · exact Or.inr rfl
      · exact Or.inl (hp.1 y hy2)
    | false =>
      rw [List.find?_cons_of_neg _ (by simp [hpa])] at hf
      obtain ⟨h1, h2, h3⟩ := ih hp.2 x hf
      refine ⟨h1, List.mem_cons_of_mem _ h2, ?_⟩
      intro y hy hpy
      rcases List.mem_cons.mp hy with rfl | hy2
      · simp [hpa] at hpy
      · exact h3 y hy2 hpy

theorem snapshot_entries_sorted (infos : List PresenceInfo) (ids? : Option (List String))
    (c : String) (out : List SnapshotEntry)
    (h : List.lookup c (buildOpenConversationSnapshot infos ids?) = some out) :
    out.Pairwise (fun a b => b.lastUpdated ≤ a.lastUpdated) := by
  rw [lookup_snapshot] at h
  cases hfold : List.lookup c (infos.foldl (snapshotStep (buildFilterSet ids?)) []) with
  | none =>
    rw [hfold] at h
    simp at h
  | some perTab =>
    rw [hfold, Option.map_some'] at h
    injection h with hout
    rw [← hout]
    have hs : ((perTab.map (fun q => q.2)).mergeSort
        (fun a b => decide (b.lastUpdated ≤ a.lastUpdated))).Pairwise
        (fun a b => decide (b.lastUpdated ≤ a.lastUpdated) = true) :=
      List.sorted_mergeSort
        (by
          intro a b c2 h1 h2
          simp at h1 h2 ⊢
          omega)
        (by
          intro a b
          simp
          omega)
        (perTab.map (fun q => q.2))
    exact hs.imp (fun h2 => of_decide_eq_true h2)

/-- **C8 (amended).** `focusConversationTab`: (a) an id that normalizes to
null reports an `invalid_conversation_id` error; (b) it reports `not_found`
exactly when no live presence connection matches the conversation; (c) the
picked target is the most-recently-updated entry whose tab is not excluded,
falling back to the overall most-recently-updated entry when every entry is
on the excluded tab; (d) if the host can fetch the picked tab the call
reports `ok` with that tab and window and leaves the registry untouched,
and if the picked tab no longer exists the call purges all presence infos
on that tab and reports a `focus_failed` *error* — not `not_found`. -/
theorem focusConversationTab_spec :
    (∀ (infos : List PresenceInfo) (cid : Option String) (ex : Option Int)
        (getTab : Int → Option BrowserTab), normalizeConversationId cid = none →
        focusConversationTab infos cid ex getTab =
          (.errorRes "invalid_conversation_id", infos)) ∧
      (∀ (infos : List PresenceInfo) (cid : Option String) (ex : Option Int)
          (getTab : Int → Option BrowserTab) (convId : String),
          normalizeConversationId cid = some convId →
          ((focusConversationTab infos cid ex getTab).1 = .notFound ↔
            ∀ info ∈ infos, ¬ infoMatches (buildFilterSet (some [convId])) convId info)) ∧
      (∀ (infos : List PresenceInfo) (convId : String) (ex : Option Int)
          (entries : List SnapshotEntry) (target : SnapshotEntry),
          List.lookup convId (buildOpenConversationSnapshot infos (some [convId])) =
            some entries →
          pickFocusTarget entries ex = some target →
          target ∈ entries ∧
            ((∃ e ∈ entries, notExcluded ex e = true) →
              notExcluded ex target = true ∧
                ∀ e ∈ entries, notExcluded ex e = true →
                  e.lastUpdated ≤ target.lastUpdated) ∧
            ((∀ e ∈ entries, notExcluded ex e = false) →
              entries.head? = some target ∧
                ∀ e ∈ entries, e.lastUpdated ≤ target.lastUpdated)) ∧
      ∀ (infos : List PresenceInfo) (cid : Option String) (ex : Option Int)
        (getTab : Int → Option BrowserTab) (convId : String) (target : SnapshotEntry),
        normalizeConversationId cid = some convId →
        pickFocusTarget ((List.lookup convId
          (buildOpenConversationSnapshot infos (some [convId]))).getD []) ex =
            some target →
        (∀ tab, getTab target.tabId = some tab →
          focusConversationTab infos cid ex getTab = (.ok tab.id tab.windowId, infos)) ∧
          (getTab target.tabId = none →
            focusConversationTab infos cid ex getTab =
              (.errorRes "focus_failed",
               infos.filter (fun info => !(info.tabId.getD 0 == target.tabId)))) := by
  refine ⟨?_, ?_, ?_, ?_⟩
  · intro infos cid ex getTab hn
    unfold focusConversationTab
    rw [hn]
  · intro infos cid ex getTab convId hn
    constructor
    · intro hres
      by_contra hcon
      push_neg at hcon
      obtain ⟨info, hin, hm⟩ := hcon
      obtain ⟨hnd, hiff, hper⟩ := snapshot_char infos (some [convId])
      have hsome : (List.lookup convId
          (infos.foldl (snapshotStep (buildFilterSet (some [convId]))) [])).isSome = true :=
        (hiff convId).mpr ⟨info, hin, hm⟩
      cases hfold : List.lookup convId
          (infos.foldl (snapshotStep (buildFilterSet (some [convId]))) []) with
      | none =>
        rw [hfold] at hsome
        cases hsome
      | some perTab =>
        obtain ⟨P1, P2, P3⟩ := hper convId perTab hfold
        have htabmem := P3 info hin hm
        have hpne : perTab ≠ [] := by
          intro hnil
          rw [hnil] at htabmem
          simp at htabmem
        have hsnap : List.lookup convId (buildOpenConversationSnapshot infos
            (some [convId])) = some ((perTab.map (fun q => q.2)).mergeSort
              (fun a b => decide (b.lastUpdated ≤ a.lastUpdated))) := by
          rw [lookup_snapshot, hfold]
          rfl
        have hene : ((perTab.map (fun q => q.2)).mergeSort
            (fun a b => decide (b.lastUpdated ≤ a.lastUpdated))) ≠ [] := by
          intro hnil
          have hperm := List.mergeSort_perm (perTab.map (fun q => q.2))
            (fun a b => decide (b.lastUpdated ≤ a.lastUpdated))
          rw [hnil] at hperm
          have h2 : perTab.map (fun q => q.2) = [] := hperm.symm.eq_nil
          rw [List.map_eq_nil_iff] at h2
          exact hpne h2
        have hpickSome := pickFocusTarget_ne_nil _ ex hene
        cases hpick : pickFocusTarget ((List.lookup convId
            (buildOpenConversationSnapshot infos (some [convId]))).getD []) ex with
        | none =>
          rw [hsnap] at hpick
          simp only [Option.getD_some] at hpick
          rw [hpick] at hpickSome
          cases hpickSome
        | some target =>
          have heval : focusConversationTab infos cid ex getTab =
              match getTab target.tabId with
              | some tab => (.ok tab.id tab.windowId, infos)
              | none =>
                (.errorRes "focus_failed",
                 infos.filter (fun info => !(info.tabId.getD 0 == target.tabId))) := by
            unfold focusConversationTab
            rw [hn]
            dsimp only
            rw [hpick]
          rw [heval] at hres
          cases hgt : getTab target.tabId with
          | some tab =>
            rw [hgt] at hres
            simp at hres
          | none =>
            rw [hgt] at hres
            simp at hres
    · intro hno
      obtain ⟨hnd, hiff, hper⟩ := snapshot_char infos (some [convId])
      have hnone : List.lookup convId
          (infos.foldl (snapshotStep (buildFilterSet (some [convId]))) []) = none := by
        cases hl : List.lookup convId
            (infos.foldl (snapshotStep (buildFilterSet (some [convId]))) []) with
        | none => rfl
        | some pt =>
          have h2 : (List.lookup convId
              (infos.foldl (snapshotStep (buildFilterSet (some [convId]))) [])).isSome
                = true := by
            rw [hl]
            rfl
          obtain ⟨info, hin, hm⟩ := (hiff convId).mp h2
          exact absurd hm (hno info hin)
      have hsnapnone : List.lookup convId
          (buildOpenConversationSnapshot infos (some [convId])) = none := by
        rw [lookup_snapshot, hnone]
        rfl
      unfold focusConversationTab
      rw [hn]
      dsimp only
      rw [hsnapnone]
      rfl
  · intro infos convId ex entries target hlk hpick
    have hsort := snapshot_entries_sorted infos (some [convId]) convId entries hlk
    rw [pickFocusTarget_eq] at hpick
    cases hf : entries.find? (notExcluded ex) with
    | some t =>
      rw [hf] at hpick
      injection hpick with h1
      subst h1
      obtain ⟨hp1, hp2, hp3⟩ := find_first_sorted (notExcluded ex)
        (fun a b => b.lastUpdated ≤ a.lastUpdated) entries hsort t hf
      refine ⟨hp2, ?_, ?_⟩
      · intro hex
        refine ⟨hp1, ?_⟩
        intro e he hpe
        rcases hp3 e he hpe with h4 | h4
        · exact h4
        · rw [h4]
      · intro hall
        rw [hall t hp2] at hp1
        cases hp1
    | none =>
      rw [hf] at hpick
      have hmem : target ∈ entries := by
        cases entries with
        | nil => simp at hpick
        | cons a rest =>
          injection hpick with h1
          rw [← h1]
          exact List.mem_cons_self _ _
      refine ⟨hmem, ?_, ?_⟩
      · rintro ⟨e, he, hpe⟩
        have h2 := List.find?_eq_none.mp hf e he
        rw [hpe] at h2
        simp at h2
      · intro hall
        refine ⟨hpick, ?_⟩
        cases entries with
        | nil => simp at hpick
        | cons a rest =>
          injection hpick with h1
          rw [List.pairwise_cons] at hsort
          intro e he
          rcases List.mem_cons.mp he with rfl | he2
          · rw [← h1]
          · rw [← h1]
            exact hsort.1 e he2
  · intro infos cid ex getTab convId target hn hpick
    constructor
    · intro tab htab
      unfold focusConversationTab
      rw [hn]
      dsimp only
      rw [hpick]
      dsimp only
      rw [htab]
    · intro htab
      unfold focusConversationTab
      rw [hn]
      dsimp only
      rw [hpick]
      dsimp only
      rw [htab]

/-- **C8, counterexample.** A live entry for conversation `"c"` on tab 7
whose tab is gone (`getTab` returns `none`): the call reports the status
`error "focus_failed"`, not `not_found` as claimed. And with
`excludeTabId = 7` (the only entry excluded) the call still focuses tab 7
via the `entries[0]` fallback rather than skipping the excluded tab. -/
theorem focusConversationTab_counterexample :
    (focusConversationTab [⟨some 7, some 1, some "c", "t", "u", false, 5⟩] (some "c") none
        (fun _ => none)).1 = .errorRes "focus_failed" ∧
      (focusConversationTab [⟨some 7, some 1, some "c", "t", "u", false, 5⟩] (some "c") none
        (fun _ => none)).1 ≠ .notFound ∧
      (focusConversationTab [⟨some 7, some 1, some "c", "t", "u", false, 5⟩] (some "c")
          (some 7) (fun t => some ⟨t, 1⟩)).1 = .ok 7 1 := by
  have h1 : (focusConversationTab [⟨some 7, some 1, some "c", "t", "u", false, 5⟩]
      (some "c") none (fun _ => none)).1 = .errorRes "focus_failed" := by
    unfold focusConversationTab
    rw [show normalizeConversationId (some "c") = some "c" from rfl]
    dsimp only
    rw [focus_snap_eval]
    rfl
  have h3 : (focusConversationTab [⟨some 7, some 1, some "c", "t", "u", false, 5⟩]
      (some "c") (some 7) (fun t => some ⟨t, 1⟩)).1 = .ok 7 1 := by
    unfold focusConversationTab
    rw [show normalizeConversationId (some "c") = some "c" from rfl]
    dsimp only
    rw [focus_snap_eval]
    rfl
  refine ⟨h1, ?_, h3⟩
  rw [h1]
  intro h4
  cases h4

/-- Witness for C8 at a concrete input: an empty presence registry reports
`not_found`. -/
theorem focusConversationTab_spec_witness :
    (focusConversationTab [] (some "c") none (fun _ => none)).1 = .notFound := by
  exact (focusConversationTab_spec.2.1 [] (some "c") none (fun _ => none) "c" rfl).mpr
    (by simp)

end Cerebr
